import Mathlib

/-!
Verification of the pattern-compilation and batched-matching engine of
`src/components/HebrewMatcher.jsx`.

JS strings are modelled as `List Char` (all characters relevant here lie in
the BMP, so UTF-16 code-unit indexing and code-point iteration agree).
Host functions (`fetch`, `String.prototype.normalize`, `RegExp`) are
modelled explicitly; each model carries a doc comment stating what part of
the host behaviour it covers.
-/

namespace HebrewMatcher

/-- Model of the JS `\s` (whitespace) character test, covering the full
ECMAScript WhiteSpace and LineTerminator sets. -/
def isWs (c : Char) : Bool :=
  let n := c.toNat
  n == 0x09 || n == 0x0A || n == 0x0B || n == 0x0C || n == 0x0D || n == 0x20 ||
  n == 0xA0 || n == 0x1680 || (0x2000 ≤ n && n ≤ 0x200A) || n == 0x2028 ||
  n == 0x2029 || n == 0x202F || n == 0x205F || n == 0x3000 || n == 0xFEFF

/-- Test for the regex `HEBREW_BLOCK = /[֐-׿]/` applied to a single
character (the source applies it to a word via `.test`, modelled as `List.any`). -/
def isHebrewChar (c : Char) : Bool :=
  0x590 ≤ c.toNat && c.toNat ≤ 0x5FF

/-- Partial model of the JS `\p{M}` (combining mark) test: faithful on the
Hebrew block (whose marks are U+0591–U+05BD, U+05BF, U+05C1, U+05C2, U+05C4,
U+05C5, U+05C7) and on the combining diacritical marks block U+0300–U+036F;
characters outside these ranges used in this development are not marks. -/
def isMark (c : Char) : Bool :=
  let n := c.toNat
  (0x300 ≤ n && n ≤ 0x36F) || (0x591 ≤ n && n ≤ 0x5BD) || n == 0x5BF ||
  n == 0x5C1 || n == 0x5C2 || n == 0x5C4 || n == 0x5C5 || n == 0x5C7

/-- Partial model of the per-character Unicode NFKD (compatibility)
decomposition used by `s.normalize("NFKD")`: the identity on every character
with no decomposition — in particular on the whole Hebrew block
U+0590–U+05FF and on ASCII — and the compatibility mapping
U+00B2 (SUPERSCRIPT TWO) ↦ "2" as a representative decomposable character. -/
def nfkdChar (c : Char) : List Char :=
  if c.toNat == 0xB2 then ['2'] else [c]

/-- Embedding of `stripNiqqud`: NFKD-decompose, drop every combining mark,
and join (`Array.from(s.normalize("NFKD")).filter(ch => !/\p{M}/u.test(ch)).join("")`). -/
def stripNiqqud (s : List Char) : List Char :=
  (s.flatMap nfkdChar).filter (fun ch => !isMark ch)

/-- Split on line boundaries, modelling `text.split(/\r?\n/)`: splitting on
`'\n'` alone is equivalent because each piece is subsequently trimmed and
trimming removes a trailing `'\r'` (which JS `trim` treats as whitespace). -/
def splitLines : List Char → List (List Char)
  | [] => [[]]
  | c :: rest =>
    if c == '\n' then [] :: splitLines rest
    else
      match splitLines rest with
      | [] => [[c]]
      | l :: ls => (c :: l) :: ls

/-- Model of JS `String.prototype.trim`: drop whitespace from both ends. -/
def trim (s : List Char) : List Char :=
  ((s.dropWhile isWs).reverse.dropWhile isWs).reverse

/-- The constant `BATCH_SIZE = 10000`. -/
def BATCH_SIZE : Nat := 10000

/-- The regex metacharacters escaped by `ch.replace(/[.*+?^${}()|[\]\\]/g, "\\$&")`. -/
def isMeta (c : Char) : Bool :=
  c == '.' || c == '*' || c == '+' || c == '?' || c == '^' || c == '$' ||
  c == Char.ofNat 0x7B || c == Char.ofNat 0x7D || c == '(' || c == ')' ||
  c == '|' || c == '[' || c == ']' || c == '\\'

/-- Escape a single template character outside a bracket class. -/
def escapeChar (c : Char) : List Char :=
  if isMeta c then ['\\', c] else [c]

/-- The pattern text `HEBREW_LETTERS_CLASS = "[\\u0590-\\u05FF]"`, i.e. the
fifteen regex-source characters of the class. -/
def HEBREW_LETTERS_CLASS : List Char :=
  ['[', '\\', 'u', '0', '5', '9', '0', '-', '\\', 'u', '0', '5', 'F', 'F', ']']

/-- The character-by-character scan loop of `templateToRegex`, building the
regex source string `out`; the `Bool` argument is the `inClass` flag. -/
def templateScan : List Char → Bool → List Char
  | [], _ => []
  | c :: rest, inClass =>
    if c == '[' && !inClass then '[' :: templateScan rest true
    else if c == ']' && inClass then ']' :: templateScan rest false
    else if inClass then c :: templateScan rest true
    else if c == '?' then HEBREW_LETTERS_CLASS ++ templateScan rest false
    else escapeChar c ++ templateScan rest false

/-- Final value of the `inClass` flag after scanning a template. -/
def scanInClass : List Char → Bool → Bool
  | [], b => b
  | c :: rest, inClass =>
    if c == '[' && !inClass then scanInClass rest true
    else if c == ']' && inClass then scanInClass rest false
    else scanInClass rest inClass

/-- The full regex source string handed to `new RegExp`, including the
whole-word anchors: `(wholeWord ? "^" : "") + out + (wholeWord ? "$" : "")`. -/
def regexSource (template : List Char) (wholeWord : Bool) : List Char :=
  (if wholeWord then ['^'] else []) ++ templateScan template false ++
  (if wholeWord then ['$'] else [])

end HebrewMatcher

namespace HebrewMatcher

/-!
Model of the JS `RegExp` engine (`u` flag) for the fragment of regex
syntax that `templateToRegex` can generate: a leading `^` anchor, escaped
literal characters, plain characters, bracket classes (with optional `^`
negation, singleton members, `\uXXXX` escapes and ranges), and a trailing
`$` anchor.  The parser rejects — like the `u`-flag `RegExp` constructor —
unterminated bracket classes, dangling backslashes, out-of-order class
ranges and malformed `\u` escapes.  Constructs outside the generated
fragment (e.g. `\d`, quantifiers, alternation) are rejected by the parser
even where JS would accept them; no theorem below exercises those.
-/

/-- A member of a parsed bracket class: a single character or a range. -/
inductive ClassItem where
  | single (c : Char)
  | range (lo hi : Char)
  deriving DecidableEq, Repr

/-- One element of a parsed regex: a literal character or a bracket class
(with negation flag). -/
inductive RElem where
  | lit (c : Char)
  | cls (neg : Bool) (items : List ClassItem)
  deriving DecidableEq, Repr

/-- Value of a hex digit, if the character is one (code-point arithmetic:
digits, lower-case and upper-case letter ranges). -/
def hexDigitVal (c : Char) : Option Nat :=
  let n := c.toNat
  if 0x30 ≤ n && n ≤ 0x39 then some (n - 0x30)
  else if 0x61 ≤ n && n ≤ 0x66 then some (n - 0x57)
  else if 0x41 ≤ n && n ≤ 0x46 then some (n - 0x37)
  else none

/-- Parse one class atom: a `\uXXXX` escape, an escaped syntax character, or
a plain character.  Returns the atom's character and the remaining input. -/
def parseClassAtom : List Char → Option (Char × List Char)
  | '\\' :: 'u' :: h1 :: h2 :: h3 :: h4 :: rest =>
    match hexDigitVal h1, hexDigitVal h2, hexDigitVal h3, hexDigitVal h4 with
    | some a, some b, some c, some d =>
      some (Char.ofNat (0x1000 * a + 0x100 * b + 0x10 * c + d), rest)
    | _, _, _, _ => none
  | '\\' :: 'u' :: _ => none
  | '\\' :: c :: rest =>
    if isMeta c || c == '/' || c == '-' then some (c, rest) else none
  | ['\\'] => none
  | ']' :: _ => none
  | [] => none
  | c :: rest => some (c, rest)

/-- Parse the members of a bracket class up to the closing `]`; the `Nat`
is fuel (each step consumes at least one character, so input length + 1
suffices).  Fails at end of input — an unterminated class. -/
def parseClassItems : Nat → List Char → Option (List ClassItem × List Char)
  | 0, _ => none
  | _ + 1, ']' :: rest => some ([], rest)
  | fuel + 1, s =>
    match parseClassAtom s with
    | none => none
    | some (a, s1) =>
      match s1 with
      | '-' :: ']' :: rest => some ([ClassItem.single a, ClassItem.single '-'], rest)
      | '-' :: s2 =>
        match parseClassAtom s2 with
        | none => none
        | some (b, s3) =>
          if a.toNat ≤ b.toNat then
            match parseClassItems fuel s3 with
            | none => none
            | some (its, r) => some (ClassItem.range a b :: its, r)
          else none
      | _ =>
        match parseClassItems fuel s1 with
        | none => none
        | some (its, r) => some (ClassItem.single a :: its, r)

/-- Parse a bracket class body (input begins after the opening `[`),
handling an optional leading `^` negation. -/
def parseClass (fuel : Nat) (s : List Char) : Option (Bool × List ClassItem × List Char) :=
  match s with
  | '^' :: rest =>
    match parseClassItems fuel rest with
    | none => none
    | some (its, r) => some (true, its, r)
  | _ =>
    match parseClassItems fuel s with
    | none => none
    | some (its, r) => some (false, its, r)

/-- Parse a sequence of regex elements up to end of input or a final `$`
anchor; returns the elements and whether the end anchor was present.  The
head character is dispatched by equality tests: a lone `$` is the end
anchor, `\` starts an escaped literal, `[` starts a bracket class, any
other metacharacter is rejected, and any other character is a literal. -/
def parseElems : Nat → List Char → Option (List RElem × Bool)
  | 0, _ => none
  | _ + 1, [] => some ([], false)
  | fuel + 1, c :: rest =>
    if c == '$' && rest.isEmpty then some ([], true)
    else if c == '\\' then
      match rest with
      | [] => none
      | c2 :: rest2 =>
        if isMeta c2 || c2 == '/' then
          match parseElems fuel rest2 with
          | none => none
          | some (es, e) => some (RElem.lit c2 :: es, e)
        else none
    else if c == '[' then
      match parseClass fuel rest with
      | none => none
      | some (neg, items, rest2) =>
        match parseElems fuel rest2 with
        | none => none
        | some (es, e) => some (RElem.cls neg items :: es, e)
    else if isMeta c then none
    else
      match parseElems fuel rest with
      | none => none
      | some (es, e) => some (RElem.lit c :: es, e)

/-- Parse a whole regex source: optional leading `^` anchor, elements,
optional trailing `$` anchor. -/
def parseAll (src : List Char) : Option (Bool × List RElem × Bool) :=
  match src with
  | '^' :: rest =>
    match parseElems (rest.length + 1) rest with
    | none => none
    | some (es, e) => some (true, es, e)
  | _ =>
    match parseElems (src.length + 1) src with
    | none => none
    | some (es, e) => some (false, es, e)

/-- Whether a class member matches a character (code-point comparison, as
with the `u` flag). -/
def classItemMatch (c : Char) : ClassItem → Bool
  | ClassItem.single a => c == a
  | ClassItem.range lo hi => lo.toNat ≤ c.toNat && c.toNat ≤ hi.toNat

/-- Whether a regex element matches a single character. -/
def elemMatch (e : RElem) (c : Char) : Bool :=
  match e with
  | RElem.lit a => c == a
  | RElem.cls neg items =>
    if neg then !(items.any (classItemMatch c)) else items.any (classItemMatch c)

/-- Consume the input character-by-character against a list of elements,
returning the unconsumed remainder on success. -/
def charsConsume : List RElem → List Char → Option (List Char)
  | [], s => some s
  | _ :: _, [] => none
  | e :: es, c :: cs => if elemMatch e c then charsConsume es cs else none

/-- Match a list of elements at the current position; with `endAnchor` the
whole remaining input must be consumed. -/
def matchEnd (es : List RElem) (s : List Char) (endAnchor : Bool) : Bool :=
  match charsConsume es s with
  | some r => !endAnchor || r.isEmpty
  | none => false

/-- Search for a match at any start position (JS `test` without a `^` anchor). -/
def searchLoop (es : List RElem) (endAnchor : Bool) : List Char → Bool
  | [] => matchEnd es [] endAnchor
  | c :: t => matchEnd es (c :: t) endAnchor || searchLoop es endAnchor t

/-- A compiled JS `RegExp` value, carrying its source pattern. -/
structure JsRegex where
  source : List Char
  deriving DecidableEq, Repr

/-- Embedding of `templateToRegex(template, wholeWord)`: run the scan, then
model `new RegExp(src, "u")`, which throws a `SyntaxError` (here
`Except.error ()`) when the source does not parse — in particular on an
unterminated bracket class. -/
def templateToRegex (template : List Char) (wholeWord : Bool) : Except Unit JsRegex :=
  let src := regexSource template wholeWord
  match parseAll src with
  | some _ => Except.ok ⟨src⟩
  | none => Except.error ()

/-- Model of `rx.test(w)` for the generated fragment. -/
def regexTest (rx : JsRegex) (w : List Char) : Bool :=
  match parseAll rx.source with
  | none => false
  | some (startAnchor, es, endAnchor) =>
    if startAnchor then matchEnd es w endAnchor else searchLoop es endAnchor w

/-- The `letterConstraints` object `{ selected, deselected }` built by
`getSelectedDeselectedSummary`; each entry is a single letter. -/
structure LetterConstraints where
  selected : List Char
  deselected : List Char
  deriving DecidableEq, Repr

/-- Embedding of the `passesLetterConstraints` helper inside
`searchInWordlist`: `null` constraints always pass; otherwise every
`selected` letter must occur in the word (`word.includes(letter)`) and no
`deselected` letter may. -/
def passesLetterConstraints (letterConstraints : Option LetterConstraints)
    (word : List Char) : Bool :=
  match letterConstraints with
  | none => true
  | some lc =>
    lc.selected.all (fun letter => word.contains letter) &&
    lc.deselected.all (fun letter => !word.contains letter)

/-- The batch loop of `searchInWordlist`, written with an explicit fuel
argument (structural recursion, so that it computes by kernel reduction):
each step filters one slice of `bs` words and appends its matches in
order; `ws.length` steps of fuel always suffice for a positive `bs`. -/
def batchedFilterGo (p : List Char → Bool) (bs : Nat) :
    Nat → List (List Char) → List (List Char)
  | _, [] => []
  | 0, _ :: _ => []
  | fuel + 1, ws => (ws.take bs).filter p ++ batchedFilterGo p bs fuel (ws.drop bs)

/-- The batch loop of `searchInWordlist`.  The JS loop does not terminate
for a zero batch size, so that case is guarded (it is never reached:
`BATCH_SIZE = 10000`). -/
def batchedFilter (bs : Nat) (p : List Char → Bool) (ws : List (List Char)) :
    List (List Char) :=
  if bs = 0 then [] else batchedFilterGo p bs ws.length ws

/-- The batched `stripNiqqud` loop of `loadWordlist`, with the same fuel
presentation as `batchedFilterGo`. -/
def batchedMapGo (f : List Char → List Char) (bs : Nat) :
    Nat → List (List Char) → List (List Char)
  | _, [] => []
  | 0, _ :: _ => []
  | fuel + 1, ws => (ws.take bs).map f ++ batchedMapGo f bs fuel (ws.drop bs)

/-- The batched `stripNiqqud` loop of `loadWordlist`: map each slice and
append, preserving order (same zero-batch guard as `batchedFilter`). -/
def batchedMap (bs : Nat) (f : List Char → List Char) (ws : List (List Char)) :
    List (List Char) :=
  if bs = 0 then [] else batchedMapGo f bs ws.length ws

/-- The scan body of `searchInWordlist` after the regex is built: a small
word list is filtered in one go, a large one through the batch loop. -/
def scanWords (bs : Nat) (rx : JsRegex) (lc : Option LetterConstraints)
    (words : List (List Char)) : List (List Char) :=
  if words.length ≤ bs then
    words.filter (fun w => regexTest rx w && passesLetterConstraints lc w)
  else
    batchedFilter bs (fun w => regexTest rx w && passesLetterConstraints lc w) words

/-- Embedding of `searchInWordlist` with the batch size generalised to a
parameter (the source fixes it to `BATCH_SIZE`); compiling the template can
raise, modelled by `Except`.  The `onProgress` callback and the
`setTimeout` yield do not affect the produced matches and are not modelled. -/
def searchInWordlistWith (bs : Nat) (words : List (List Char)) (pat : List Char)
    (wholeWord : Bool) (lc : Option LetterConstraints) :
    Except Unit (List (List Char)) :=
  match templateToRegex pat wholeWord with
  | Except.error e => Except.error e
  | Except.ok rx => Except.ok (scanWords bs rx lc words)

/-- Embedding of `searchInWordlist` as written, with `BATCH_SIZE = 10000`. -/
def searchInWordlist (words : List (List Char)) (pat : List Char)
    (wholeWord : Bool) (lc : Option LetterConstraints) :
    Except Unit (List (List Char)) :=
  searchInWordlistWith BATCH_SIZE words pat wholeWord lc

end HebrewMatcher

namespace HebrewMatcher

/-!
The wordlist loader and the orchestrator `loadAndSearchWordlists`.
Network fetches are modelled by an explicit function from URL to outcome
(`Except Nat` carries the HTTP status of a failed response); the
`onSourceStatus` callback is modelled by an event list carried in the
result, in call order.  The `onProgress` status strings are pure
observations and are not modelled.
-/

/-- The keys of the `sources` table plus the distinguished `"custom"` key. -/
inductive SourceKey where
  | adjectives
  | nouns
  | verbs
  | he_IL
  | custom
  deriving DecidableEq, Repr

/-- The fixed `sources` table mapping a key to its resource URL (the
`custom` key never reaches the table in the source; it is mapped to the
empty URL here). -/
def sourcesTable : SourceKey → List Char
  | SourceKey.adjectives => ['a', 'd', 'j', 'e', 'c', 't', 'i', 'v', 'e', 's', '.', 't', 'x', 't']
  | SourceKey.nouns => ['n', 'o', 'u', 'n', 's', '.', 't', 'x', 't']
  | SourceKey.verbs =>
    ['v', 'e', 'r', 'b', 's', '_', 'n', 'o', '_', 'f', 'a', 't', 'v', 'e', 'r', 'b', '.', 't', 'x', 't']
  | SourceKey.he_IL => ['h', 'e', '_', 'I', 'L', '.', 'd', 'i', 'c']
  | SourceKey.custom => []

/-- The errors a run can raise: a failed fetch (carrying the HTTP status,
which the source interpolates into the thrown message), the
"choose a source" error for a custom source with neither pasted text nor a
URL, and the `RegExp` `SyntaxError` from template compilation. -/
inductive RunErr where
  | http (status : Nat)
  | badCustomSource
  | regexSyntax
  deriving DecidableEq, Repr

/-- The search options object `{ stripNiqqud, unique, wholeWord }` passed by
`handleSearch` (the `sort` flag is applied by `handleSearch` itself). -/
structure SearchOpts where
  stripNiqqud : Bool
  unique : Bool
  wholeWord : Bool
  deriving DecidableEq, Repr

/-- The line-splitting and filtering steps of `loadWordlist`:
`text.split(/\r?\n/).map(s => s.trim()).filter(Boolean)` followed by
`words.filter(w => !/\s/.test(w) && HEBREW_BLOCK.test(w))`. -/
def validWords (text : List Char) : List (List Char) :=
  (((splitLines text).map trim).filter (fun w => !w.isEmpty)).filter
    (fun w => !w.any isWs && w.any isHebrewChar)

/-- The pure text-processing tail of `loadWordlist`: split into lines, trim,
drop empties, keep lines with no whitespace and at least one Hebrew-block
character, then optionally strip niqqud in batches. -/
def processText (text : List Char) (opts : SearchOpts) : List (List Char) :=
  if opts.stripNiqqud then batchedMap BATCH_SIZE stripNiqqud (validWords text)
  else validWords text

/-- The text-resolution phase of `loadWordlist`: pasted text, custom URL or
the fixed source table.  `fetch` models the host `fetch` composed with
`res.text()`: it maps a URL to the body text or, for a network failure or
non-2xx response, to the status used in the thrown message. -/
def resolveText (fetch : List Char → Except Nat (List Char)) (sourceKey : SourceKey)
    (customUrl pasted : Option (List Char)) : Except RunErr (List Char) :=
  match sourceKey with
  | SourceKey.custom =>
    match pasted with
    | some p =>
      if !(trim p).isEmpty then Except.ok p
      else
        match customUrl with
        | some u =>
          if !(trim u).isEmpty then (fetch (trim u)).mapError RunErr.http
          else Except.error RunErr.badCustomSource
        | none => Except.error RunErr.badCustomSource
    | none =>
      match customUrl with
      | some u =>
        if !(trim u).isEmpty then (fetch (trim u)).mapError RunErr.http
        else Except.error RunErr.badCustomSource
      | none => Except.error RunErr.badCustomSource
  | k =>
    match fetch (sourcesTable k) with
    | Except.ok t => Except.ok t
    | Except.error s => Except.error (RunErr.http s)

/-- Embedding of `loadWordlist(sourceKey, customUrl, pasted, opts)` proper:
resolve the raw text, then process it into words. -/
def loadWordlist (fetch : List Char → Except Nat (List Char)) (sourceKey : SourceKey)
    (customUrl pasted : Option (List Char)) (opts : SearchOpts) :
    Except RunErr (List (List Char)) :=
  match resolveText fetch sourceKey customUrl pasted with
  | Except.error e => Except.error e
  | Except.ok t => Except.ok (processText t opts)

/-- One recorded `onSourceStatus(key, status, count, message)` call. -/
inductive StatusEvent where
  | success (key : SourceKey) (count : Nat)
  | failure (key : SourceKey) (count : Nat) (msg : RunErr)
  deriving DecidableEq, Repr

/-- A custom word list entry `{ name, words }`. -/
structure CustomList where
  name : List Char
  words : List (List Char)
  deriving DecidableEq, Repr

/-- The mutable accumulation state of `loadAndSearchWordlists`:
`allMatches`, `allWordCounts` and the `onSourceStatus` call record. -/
structure OrchState where
  matches' : List (List Char)
  total : Nat
  matched : Nat
  events : List StatusEvent
  deriving DecidableEq, Repr

/-- One iteration of the per-source loop: load, add the loaded count, scan,
append matches and record a status event; any error inside the `try` is
caught and recorded as an `'error'` status with count 0 and the message. -/
def processSource (fetch : List Char → Except Nat (List Char)) (pat : List Char)
    (opts : SearchOpts) (lc : Option LetterConstraints) (st : OrchState)
    (k : SourceKey) : OrchState :=
  match loadWordlist fetch k none none opts with
  | Except.error e => { st with events := st.events ++ [StatusEvent.failure k 0 e] }
  | Except.ok words =>
    let st := { st with total := st.total + words.length }
    match searchInWordlist words pat opts.wholeWord lc with
    | Except.error _ =>
      { st with events := st.events ++ [StatusEvent.failure k 0 RunErr.regexSyntax] }
    | Except.ok ms =>
      { st with
        matches' := st.matches' ++ ms
        matched := st.matched + ms.length
        events := st.events ++ [StatusEvent.success k words.length] }

/-- The per-source loop of `loadAndSearchWordlists`. -/
def processSources (fetch : List Char → Except Nat (List Char)) (pat : List Char)
    (opts : SearchOpts) (lc : Option LetterConstraints) :
    OrchState → List SourceKey → OrchState
  | st, [] => st
  | st, k :: ks => processSources fetch pat opts lc (processSource fetch pat opts lc st k) ks

/-- The custom-wordlist loop: scan each list directly (no load step, no
status callback); a search error here is not caught and aborts the run. -/
def processCustoms (pat : List Char) (opts : SearchOpts) (lc : Option LetterConstraints) :
    OrchState → List CustomList → Except RunErr OrchState
  | st, [] => Except.ok st
  | st, cl :: cls =>
    match searchInWordlist cl.words pat opts.wholeWord lc with
    | Except.error _ => Except.error RunErr.regexSyntax
    | Except.ok ms =>
      processCustoms pat opts lc
        { st with
          matches' := st.matches' ++ ms
          total := st.total + cl.words.length
          matched := st.matched + ms.length } cls

/-- The duplicate-removal loop: a `seen` set (modelled as a list) and a
fresh output, keeping the first occurrence of each word. -/
def dedupeGo (seen : List (List Char)) : List (List Char) → List (List Char)
  | [] => []
  | w :: ws => if seen.contains w then dedupeGo seen ws else w :: dedupeGo (w :: seen) ws

/-- Remove duplicates keeping first occurrences, as the `opts.unique` block does. -/
def dedupeFirst (l : List (List Char)) : List (List Char) :=
  dedupeGo [] l

/-- The `{ matches, stats }` value returned by `loadAndSearchWordlists`,
with the recorded `onSourceStatus` calls alongside. -/
structure SearchResult where
  matches' : List (List Char)
  total : Nat
  matched : Nat
  events : List StatusEvent
  deriving DecidableEq, Repr

/-- Embedding of `loadAndSearchWordlists(sourceKeys, customWordlists,
pattern, opts, onSourceStatus, onProgress, letterConstraints)`. -/
def loadAndSearchWordlists (fetch : List Char → Except Nat (List Char))
    (sourceKeys : List SourceKey) (customWordlists : List CustomList)
    (pat : List Char) (opts : SearchOpts) (lc : Option LetterConstraints) :
    Except RunErr SearchResult :=
  match processCustoms pat opts lc
      (processSources fetch pat opts lc ⟨[], 0, 0, []⟩ sourceKeys) customWordlists with
  | Except.error e => Except.error e
  | Except.ok st2 =>
    if opts.unique then
      Except.ok ⟨dedupeFirst st2.matches', st2.total, (dedupeFirst st2.matches').length, st2.events⟩
    else
      Except.ok ⟨st2.matches', st2.total, st2.matched, st2.events⟩

/-- Lexicographic code-point comparison on words: `wordLe a b` models
`a.localeCompare(b) <= 0`.  `localeCompare` is locale-dependent; on Hebrew
base letters (and on equal strings) the root collation coincides with
code-point order, which is what this model implements. -/
def wordLe : List Char → List Char → Bool
  | [], _ => true
  | _ :: _, [] => false
  | a :: as, b :: bs =>
    if a.toNat < b.toNat then true
    else if b.toNat < a.toNat then false
    else wordLe as bs

/-- The comparator relation used for sorting results. -/
def wordLeR (a b : List Char) : Prop :=
  wordLe a b = true

instance instDecidableWordLeR : DecidableRel wordLeR := by
  intro a b
  unfold wordLeR
  infer_instance

/-- The final-results value computed by `handleSearch` around the
orchestrator call: run `loadAndSearchWordlists`, then, if the sort flag is
set, sort the matches with `(a, b) => a.localeCompare(b)` (JS `Array.sort`
is stable; modelled by stable insertion sort). -/
def handleSearchCore (fetch : List Char → Except Nat (List Char))
    (sourceKeys : List SourceKey) (customWordlists : List CustomList)
    (pat : List Char) (opts : SearchOpts) (lc : Option LetterConstraints)
    (sortFlag : Bool) : Except RunErr SearchResult :=
  match loadAndSearchWordlists fetch sourceKeys customWordlists pat opts lc with
  | Except.error e => Except.error e
  | Except.ok r =>
    let finalResults := if sortFlag then List.insertionSort wordLeR r.matches' else r.matches'
    Except.ok ⟨finalResults, r.total, r.matched, r.events⟩

end HebrewMatcher

namespace HebrewMatcher

/-! Helper lemmas about the batch loops, deduplication and sorting. -/

instance instDecidableEqExcept {ε α : Type} [DecidableEq ε] [DecidableEq α] :
    DecidableEq (Except ε α) := fun a b =>
  match a, b with
  | Except.error x, Except.error y =>
    if h : x = y then isTrue (by rw [h])
    else isFalse (by intro hc; injection hc; exact h ‹_›)
  | Except.error _, Except.ok _ => isFalse (by intro hc; cases hc)
  | Except.ok _, Except.error _ => isFalse (by intro hc; cases hc)
  | Except.ok x, Except.ok y =>
    if h : x = y then isTrue (by rw [h])
    else isFalse (by intro hc; injection hc; exact h ‹_›)

lemma batchedFilterGo_eq (p : List Char → Bool) (bs : Nat) (hbs : bs ≠ 0) :
    ∀ (fuel : Nat) (ws : List (List Char)), ws.length ≤ fuel →
      batchedFilterGo p bs fuel ws = ws.filter p := by
  intro fuel
  induction fuel with
  | zero =>
    intro ws h
    cases ws with
    | nil => rfl
    | cons a t => simp at h
  | succ n ih =>
    intro ws h
    cases ws with
    | nil => rfl
    | cons a t =>
      show (((a :: t).take bs).filter p) ++ batchedFilterGo p bs n ((a :: t).drop bs) = _
      rw [ih ((a :: t).drop bs) (by simp [List.length_drop] at h ⊢; omega)]
      rw [← List.filter_append, List.take_append_drop]

lemma batchedFilter_eq_filter (bs : Nat) (p : List Char → Bool) (hbs : bs ≠ 0) :
    ∀ ws, batchedFilter bs p ws = ws.filter p := by
  intro ws
  unfold batchedFilter
  rw [if_neg hbs]
  exact batchedFilterGo_eq p bs hbs ws.length ws le_rfl

lemma batchedMapGo_eq (f : List Char → List Char) (bs : Nat) (hbs : bs ≠ 0) :
    ∀ (fuel : Nat) (ws : List (List Char)), ws.length ≤ fuel →
      batchedMapGo f bs fuel ws = ws.map f := by
  intro fuel
  induction fuel with
  | zero =>
    intro ws h
    cases ws with
    | nil => rfl
    | cons a t => simp at h
  | succ n ih =>
    intro ws h
    cases ws with
    | nil => rfl
    | cons a t =>
      show (((a :: t).take bs).map f) ++ batchedMapGo f bs n ((a :: t).drop bs) = _
      rw [ih ((a :: t).drop bs) (by simp [List.length_drop] at h ⊢; omega)]
      rw [← List.map_append, List.take_append_drop]

lemma batchedMap_eq_map (bs : Nat) (f : List Char → List Char) (hbs : bs ≠ 0) :
    ∀ ws, batchedMap bs f ws = ws.map f := by
  intro ws
  unfold batchedMap
  rw [if_neg hbs]
  exact batchedMapGo_eq f bs hbs ws.length ws le_rfl

lemma scanWords_eq_filter (bs : Nat) (hbs : bs ≠ 0) (rx : JsRegex)
    (lc : Option LetterConstraints) (words : List (List Char)) :
    scanWords bs rx lc words =
      words.filter (fun w => regexTest rx w && passesLetterConstraints lc w) := by
  unfold scanWords
  split
  · rfl
  · exact batchedFilter_eq_filter bs _ hbs words

lemma searchInWordlist_of_compile {pat : List Char} {ww : Bool} {rx : JsRegex}
    (hrx : templateToRegex pat ww = Except.ok rx) (ws : List (List Char))
    (lc : Option LetterConstraints) :
    searchInWordlist ws pat ww lc = Except.ok (scanWords BATCH_SIZE rx lc ws) := by
  unfold searchInWordlist searchInWordlistWith
  rw [hrx]

end HebrewMatcher

namespace HebrewMatcher

/-- C2: for every word list, compiled matcher, constraint set and positive
chunk size, the batched scan returns exactly the input filtered by matcher
and constraint filter, in input order — hence any two chunk sizes produce
identical match sequences. -/
theorem scan_chunk_invariant (bs : Nat) (words : List (List Char)) (pat : List Char)
    (wholeWord : Bool) (lc : Option LetterConstraints) (rx : JsRegex)
    (hbs : 0 < bs) (hrx : templateToRegex pat wholeWord = Except.ok rx) :
    searchInWordlistWith bs words pat wholeWord lc =
      Except.ok (words.filter (fun w => regexTest rx w && passesLetterConstraints lc w)) := by
  unfold searchInWordlistWith
  rw [hrx]
  exact congrArg Except.ok (scanWords_eq_filter bs (by omega) rx lc words)

/-- Witness for C2 at chunk size 2 on a three-word list (so the batch loop
is exercised) with the template `א`. -/
theorem scan_chunk_invariant_witness :
    0 < 2 ∧
    templateToRegex ['א'] true = Except.ok ⟨regexSource ['א'] true⟩ ∧
    searchInWordlistWith 2 [['א'], ['ב'], ['א']] ['א'] true none =
      Except.ok ([['א'], ['ב'], ['א']].filter
        (fun w => regexTest ⟨regexSource ['א'] true⟩ w && passesLetterConstraints none w)) :=
  ⟨by decide, by decide,
    scan_chunk_invariant 2 [['א'], ['ב'], ['א']] ['א'] true none
      ⟨regexSource ['א'] true⟩ (by decide) (by decide)⟩

/-- C4: the constraint filter passes a word exactly when every required
letter occurs in it and no forbidden letter does, and `null` constraints
always pass. -/
theorem letter_filter_correct (w R F : List Char) (hdisj : ∀ c, c ∈ R → c ∉ F) :
    (passesLetterConstraints (some ⟨R, F⟩) w = true ↔
      ((∀ c ∈ R, c ∈ w) ∧ ∀ c ∈ F, c ∉ w)) ∧
    passesLetterConstraints none w = true := by
  refine ⟨?_, rfl⟩
  simp [passesLetterConstraints, List.all_eq_true, List.elem_iff]

/-- Witness for C4: required `ש`, forbidden `ל`, word `שמש`. -/
theorem letter_filter_correct_witness :
    (∀ c, c ∈ ['ש'] → c ∉ ['ל']) ∧
    (passesLetterConstraints (some ⟨['ש'], ['ל']⟩) ['ש', 'מ', 'ש'] = true ↔
      ((∀ c ∈ ['ש'], c ∈ ['ש', 'מ', 'ש']) ∧ ∀ c ∈ ['ל'], c ∉ ['ש', 'מ', 'ש'])) ∧
    passesLetterConstraints none ['ש', 'מ', 'ש'] = true :=
  ⟨by decide,
    (letter_filter_correct ['ש', 'מ', 'ש'] ['ש'] ['ל'] (by decide)).1,
    (letter_filter_correct ['ש', 'מ', 'ש'] ['ש'] ['ל'] (by decide)).2⟩

end HebrewMatcher

namespace HebrewMatcher

/-! Lemmas for deduplication and the `unique` flag. -/

lemma processSource_opts_congr (fetch : List Char → Except Nat (List Char))
    (pat : List Char) (lc : Option LetterConstraints) (st : OrchState) (k : SourceKey)
    (sn u1 u2 w : Bool) :
    processSource fetch pat ⟨sn, u1, w⟩ lc st k =
      processSource fetch pat ⟨sn, u2, w⟩ lc st k := rfl

lemma processSources_opts_congr (fetch : List Char → Except Nat (List Char))
    (pat : List Char) (lc : Option LetterConstraints) (sn u1 u2 w : Bool) :
    ∀ (ks : List SourceKey) (st : OrchState),
      processSources fetch pat ⟨sn, u1, w⟩ lc st ks =
        processSources fetch pat ⟨sn, u2, w⟩ lc st ks := by
  intro ks
  induction ks with
  | nil => intro st; rfl
  | cons k ks ih =>
    intro st
    show processSources fetch pat ⟨sn, u1, w⟩ lc
        (processSource fetch pat ⟨sn, u1, w⟩ lc st k) ks = _
    rw [processSource_opts_congr fetch pat lc st k sn u1 u2 w, ih]
    rfl

lemma processCustoms_opts_congr (pat : List Char) (lc : Option LetterConstraints)
    (sn u1 u2 w : Bool) :
    ∀ (cls : List CustomList) (st : OrchState),
      processCustoms pat ⟨sn, u1, w⟩ lc st cls =
        processCustoms pat ⟨sn, u2, w⟩ lc st cls := by
  intro cls
  induction cls with
  | nil => intro st; rfl
  | cons cl cls ih =>
    intro st
    show (match searchInWordlist cl.words pat w lc with
      | Except.error _ => Except.error RunErr.regexSyntax
      | Except.ok ms => processCustoms pat ⟨sn, u1, w⟩ lc
          { st with
            matches' := st.matches' ++ ms
            total := st.total + cl.words.length
            matched := st.matched + ms.length } cls) =
      (match searchInWordlist cl.words pat w lc with
      | Except.error _ => Except.error RunErr.regexSyntax
      | Except.ok ms => processCustoms pat ⟨sn, u2, w⟩ lc
          { st with
            matches' := st.matches' ++ ms
            total := st.total + cl.words.length
            matched := st.matched + ms.length } cls)
    cases searchInWordlist cl.words pat w lc with
    | error e => rfl
    | ok ms => exact ih _

lemma dedupeGo_idem : ∀ (l seen : List (List Char)),
    dedupeGo seen (dedupeGo seen l) = dedupeGo seen l := by
  intro l
  induction l with
  | nil => intro seen; rfl
  | cons w ws ih =>
    intro seen
    by_cases h : seen.contains w = true
    · have hin : dedupeGo seen (w :: ws) = dedupeGo seen ws := by
        rw [dedupeGo, if_pos h]
      rw [hin, ih]
    · have hin : dedupeGo seen (w :: ws) = w :: dedupeGo (w :: seen) ws := by
        rw [dedupeGo, if_neg h]
      rw [hin]
      rw [dedupeGo, if_neg h]
      rw [ih (w :: seen)]

lemma dedupeGo_sublist : ∀ (l seen : List (List Char)), (dedupeGo seen l).Sublist l := by
  intro l
  induction l with
  | nil => intro seen; exact List.Sublist.refl []
  | cons w ws ih =>
    intro seen
    by_cases h : seen.contains w = true
    · rw [dedupeGo, if_pos h]
      exact (ih seen).trans (List.sublist_cons_self w ws)
    · rw [dedupeGo, if_neg h]
      exact (ih (w :: seen)).cons₂ w

end HebrewMatcher

namespace HebrewMatcher

/-- C6: with the dedupe option set the orchestrator returns exactly the
non-deduplicated run's matches with repeats removed (keeping first
occurrences, in accumulation order) and `matched` recomputed as the
deduplicated count; moreover dedupe is idempotent and order-preserving
(the deduplicated sequence is a sublist of the original). -/
theorem dedupe_correct :
    (∀ (fetch : List Char → Except Nat (List Char)) (sourceKeys : List SourceKey)
        (customWordlists : List CustomList) (pat : List Char) (opts : SearchOpts)
        (lc : Option LetterConstraints), opts.unique = true →
      loadAndSearchWordlists fetch sourceKeys customWordlists pat opts lc =
        (loadAndSearchWordlists fetch sourceKeys customWordlists pat
            { opts with unique := false } lc).map
          (fun r => ⟨dedupeFirst r.matches', r.total, (dedupeFirst r.matches').length, r.events⟩)) ∧
    (∀ l, dedupeFirst (dedupeFirst l) = dedupeFirst l) ∧
    (∀ l, (dedupeFirst l).Sublist l) := by
  refine ⟨?_, fun l => dedupeGo_idem l [], fun l => dedupeGo_sublist l []⟩
  intro fetch sourceKeys customWordlists pat opts lc hu
  have e2 : opts = ⟨opts.stripNiqqud, opts.unique, opts.wholeWord⟩ := rfl
  unfold loadAndSearchWordlists
  rw [processSources_opts_congr fetch pat lc opts.stripNiqqud false opts.unique opts.wholeWord,
      processCustoms_opts_congr pat lc opts.stripNiqqud false opts.unique opts.wholeWord,
      ← e2]
  cases processCustoms pat opts lc (processSources fetch pat opts lc ⟨[], 0, 0, []⟩ sourceKeys)
      customWordlists with
  | error e => rfl
  | ok st2 =>
    simp [hu, Except.map]

/-- Witness for C6: a run over one custom list `[בב, אא, בב]` with
dedupe on equals the dedupe-off run post-processed by `dedupeFirst`. -/
theorem dedupe_correct_witness :
    (SearchOpts.mk false true true).unique = true ∧
    loadAndSearchWordlists (fun _ => Except.error 404) []
        [⟨['x'], [['ב', 'ב'], ['א', 'א'], ['ב', 'ב']]⟩] ['?', '?'] ⟨false, true, true⟩ none =
      (loadAndSearchWordlists (fun _ => Except.error 404) []
          [⟨['x'], [['ב', 'ב'], ['א', 'א'], ['ב', 'ב']]⟩] ['?', '?']
          { SearchOpts.mk false true true with unique := false } none).map
        (fun r => ⟨dedupeFirst r.matches', r.total, (dedupeFirst r.matches').length, r.events⟩) :=
  ⟨rfl,
    dedupe_correct.1 (fun _ => Except.error 404) []
      [⟨['x'], [['ב', 'ב'], ['א', 'א'], ['ב', 'ב']]⟩] ['?', '?'] ⟨false, true, true⟩ none rfl⟩

end HebrewMatcher

namespace HebrewMatcher

/-! The comparator `wordLe` is total and transitive, so the sorted results
are `List.Sorted` with respect to it. -/

lemma wordLe_total : ∀ a b : List Char, wordLe a b = true ∨ wordLe b a = true := by
  intro a
  induction a with
  | nil => intro b; left; rfl
  | cons x xs ih =>
    intro b
    cases b with
    | nil => right; rfl
    | cons y ys =>
      rcases Nat.lt_trichotomy x.toNat y.toNat with h | h | h
      · left
        rw [wordLe, if_pos h]
      · rcases ih ys with h2 | h2
        · left
          rw [wordLe, if_neg (by omega), if_neg (by omega)]
          exact h2
        · right
          rw [wordLe, if_neg (by omega), if_neg (by omega)]
          exact h2
      · right
        rw [wordLe, if_pos h]

lemma wordLe_trans : ∀ a b c : List Char,
    wordLe a b = true → wordLe b c = true → wordLe a c = true := by
  intro a
  induction a with
  | nil => intro b c _ _; rfl
  | cons x xs ih =>
    intro b c hab hbc
    cases b with
    | nil => exact absurd hab (by simp [wordLe])
    | cons y ys =>
      cases c with
      | nil => exact absurd hbc (by simp [wordLe])
      | cons z zs =>
        rw [wordLe] at hab hbc ⊢
        by_cases hxy : x.toNat < y.toNat
        · by_cases hyz : y.toNat < z.toNat
          · rw [if_pos (by omega)]
          · rw [if_neg hyz] at hbc
            by_cases hzy : z.toNat < y.toNat
            · rw [if_pos hzy] at hbc
              cases hbc
            · rw [if_pos (by omega)]
        · rw [if_neg hxy] at hab
          by_cases hyx : y.toNat < x.toNat
          · rw [if_pos hyx] at hab
            cases hab
          · rw [if_neg hyx] at hab
            by_cases hyz : y.toNat < z.toNat
            · rw [if_pos (by omega)]
            · rw [if_neg hyz] at hbc
              by_cases hzy : z.toNat < y.toNat
              · rw [if_pos hzy] at hbc
                cases hbc
              · rw [if_neg hzy] at hbc
                rw [if_neg (by omega), if_neg (by omega)]
                exact ih ys zs hab hbc

instance instIsTotalWordLeR : IsTotal (List Char) wordLeR :=
  ⟨wordLe_total⟩

instance instIsTransWordLeR : IsTrans (List Char) wordLeR :=
  ⟨fun a b c => wordLe_trans a b c⟩

end HebrewMatcher

namespace HebrewMatcher

/-- C5: whenever a run of the search pipeline with the sort flag set
returns a result, its match sequence is sorted by the locale-aware
comparator (modelled by `wordLeR`). -/
theorem sort_results_sorted (fetch : List Char → Except Nat (List Char))
    (sourceKeys : List SourceKey) (customWordlists : List CustomList)
    (pat : List Char) (opts : SearchOpts) (lc : Option LetterConstraints)
    (r : SearchResult)
    (h : handleSearchCore fetch sourceKeys customWordlists pat opts lc true = Except.ok r) :
    List.Sorted wordLeR r.matches' := by
  unfold handleSearchCore at h
  cases hv : loadAndSearchWordlists fetch sourceKeys customWordlists pat opts lc with
  | error e =>
    rw [hv] at h
    cases h
  | ok r0 =>
    rw [hv] at h
    simp only [if_pos, if_true] at h
    cases h
    exact List.sorted_insertionSort wordLeR r0.matches'

/-- Witness for C5: the dedupe+sort scenario — matches `[בב, אא, בב]` with
dedupe and sort on yields `[אא, בב]`, which is sorted. -/
theorem sort_results_sorted_witness :
    handleSearchCore (fun _ => Except.error 404) []
        [⟨['x'], [['ב', 'ב'], ['א', 'א'], ['ב', 'ב']]⟩] ['?', '?'] ⟨false, true, true⟩ none true =
      Except.ok ⟨[['א', 'א'], ['ב', 'ב']], 3, 2, []⟩ ∧
    List.Sorted wordLeR [['א', 'א'], ['ב', 'ב']] := by
  have hrun : handleSearchCore (fun _ => Except.error 404) []
      [⟨['x'], [['ב', 'ב'], ['א', 'א'], ['ב', 'ב']]⟩] ['?', '?'] ⟨false, true, true⟩ none true =
      Except.ok ⟨[['א', 'א'], ['ב', 'ב']], 3, 2, []⟩ := by decide
  refine ⟨hrun, ?_⟩
  have hs := sort_results_sorted (fun _ => Except.error 404) []
    [⟨['x'], [['ב', 'ב'], ['א', 'א'], ['ב', 'ב']]⟩] ['?', '?'] ⟨false, true, true⟩ none
    ⟨[['א', 'א'], ['ב', 'ב']], 3, 2, []⟩ hrun
  exact hs

end HebrewMatcher

namespace HebrewMatcher

/-- C8 (amended): the normalizer applies compatibility (NFKD)
decomposition and removes every combining-mark code point; consequently
`strip(w) = w` for every word whose characters are NFKD-invariant and not
combining marks — in particular for every word of Hebrew base letters
(U+05D0–U+05EA). -/
theorem strip_identity_on_plain_words :
    (∀ w : List Char, (∀ c ∈ w, nfkdChar c = [c] ∧ isMark c = false) →
      stripNiqqud w = w) ∧
    (∀ w : List Char, (∀ c ∈ w, 0x5D0 ≤ c.toNat ∧ c.toNat ≤ 0x5EA) →
      stripNiqqud w = w) := by
  have main : ∀ w : List Char, (∀ c ∈ w, nfkdChar c = [c] ∧ isMark c = false) →
      stripNiqqud w = w := by
    intro w
    induction w with
    | nil => intro _; rfl
    | cons c cs ih =>
      intro h
      have hc := h c (List.mem_cons_self c cs)
      have hcs : ∀ x ∈ cs, nfkdChar x = [x] ∧ isMark x = false :=
        fun x hx => h x (List.mem_cons_of_mem c hx)
      show ((c :: cs).flatMap nfkdChar).filter (fun ch => !isMark ch) = c :: cs
      rw [List.flatMap_cons, List.filter_append, hc.1]
      have hone : ([c].filter (fun ch => !isMark ch)) = [c] := by
        simp [hc.2]
      rw [hone]
      exact congrArg (c :: ·) (ih hcs)
  refine ⟨main, ?_⟩
  intro w h
  apply main
  intro c hc
  obtain ⟨h1, h2⟩ := h c hc
  constructor
  · simp only [nfkdChar]
    rw [if_neg (by simp; omega)]
  · rw [Bool.eq_false_iff]
    intro hm
    simp only [isMark, Bool.or_eq_true, Bool.and_eq_true, decide_eq_true_eq,
      beq_iff_eq] at hm
    omega

/-- Witness for C8 on the Hebrew word `שלום`. -/
theorem strip_identity_on_plain_words_witness :
    ((∀ c ∈ ['ש', 'ל', 'ו', 'ם'], nfkdChar c = [c] ∧ isMark c = false) ∧
      stripNiqqud ['ש', 'ל', 'ו', 'ם'] = ['ש', 'ל', 'ו', 'ם']) ∧
    ((∀ c ∈ ['ש', 'ל', 'ו', 'ם'], 0x5D0 ≤ c.toNat ∧ c.toNat ≤ 0x5EA) ∧
      stripNiqqud ['ש', 'ל', 'ו', 'ם'] = ['ש', 'ל', 'ו', 'ם']) :=
  ⟨⟨by decide, strip_identity_on_plain_words.1 ['ש', 'ל', 'ו', 'ם'] (by decide)⟩,
   ⟨by decide, strip_identity_on_plain_words.2 ['ש', 'ל', 'ו', 'ם'] (by decide)⟩⟩

/-- Counterexample to C8 as stated: `²` (U+00B2) contains no combining
marks — not even after canonical decomposition — yet `strip` rewrites it
to `2`, because `normalize("NFKD")` applies compatibility, not canonical,
decomposition.  So "strip removes exactly the combining-mark code points
obtained by canonical decomposition" and "strip(w) = w for every word with
no combining marks" both fail at `w = "²"`. -/
theorem strip_counterexample :
    stripNiqqud [Char.ofNat 0xB2] = ['2'] ∧
    isMark (Char.ofNat 0xB2) = false ∧
    Char.ofNat 0xB2 ≠ '2' := by
  refine ⟨by decide, by decide, by decide⟩

end HebrewMatcher

namespace HebrewMatcher

lemma validWords_facts (text : List Char) (w : List Char) (hw : w ∈ validWords text) :
    w ≠ [] ∧ w.any isWs = false ∧ w.any isHebrewChar = true := by
  unfold validWords at hw
  obtain ⟨hw1, hp⟩ := List.mem_filter.mp hw
  obtain ⟨_, hq⟩ := List.mem_filter.mp hw1
  obtain ⟨hp1, hp2⟩ := Bool.and_eq_true_iff.mp hp
  refine ⟨?_, ?_, hp2⟩
  · intro hnil
    subst hnil
    simp at hq
  · simpa using hp1

lemma loadWordlist_ok_processText (fetch : List Char → Except Nat (List Char))
    (k : SourceKey) (cu pasted : Option (List Char)) (opts : SearchOpts)
    (ws : List (List Char))
    (h : loadWordlist fetch k cu pasted opts = Except.ok ws) :
    ∃ t, ws = processText t opts := by
  unfold loadWordlist at h
  cases hr : resolveText fetch k cu pasted with
  | error e =>
    rw [hr] at h
    cases h
  | ok t =>
    rw [hr] at h
    cases h
    exact ⟨t, rfl⟩

/-- C9 (amended): with `stripDiacritics` unset, every word returned by
`loadWordlist` is non-empty, has no whitespace and contains a Hebrew-block
character; with it set, every returned word is the niqqud-stripped form of
such a word — and stripping can break the invariants (see the
counterexample), so the invariant as claimed holds only pre-stripping. -/
theorem loadWordlist_word_invariants :
    (∀ (fetch : List Char → Except Nat (List Char)) (k : SourceKey)
        (cu pasted : Option (List Char)) (opts : SearchOpts) (ws : List (List Char)),
      opts.stripNiqqud = false →
      loadWordlist fetch k cu pasted opts = Except.ok ws →
      ∀ w ∈ ws, w ≠ [] ∧ w.any isWs = false ∧ w.any isHebrewChar = true) ∧
    (∀ (fetch : List Char → Except Nat (List Char)) (k : SourceKey)
        (cu pasted : Option (List Char)) (opts : SearchOpts) (ws : List (List Char)),
      opts.stripNiqqud = true →
      loadWordlist fetch k cu pasted opts = Except.ok ws →
      ∀ w ∈ ws, ∃ w0, w = stripNiqqud w0 ∧ w0 ≠ [] ∧ w0.any isWs = false ∧
        w0.any isHebrewChar = true) := by
  constructor
  · intro fetch k cu pasted opts ws hstrip h w hw
    obtain ⟨t, ht⟩ := loadWordlist_ok_processText fetch k cu pasted opts ws h
    subst ht
    unfold processText at hw
    rw [hstrip] at hw
    simp only [Bool.false_eq_true, if_false] at hw
    exact validWords_facts t w hw
  · intro fetch k cu pasted opts ws hstrip h w hw
    obtain ⟨t, ht⟩ := loadWordlist_ok_processText fetch k cu pasted opts ws h
    subst ht
    unfold processText at hw
    rw [hstrip] at hw
    simp only [if_true] at hw
    rw [batchedMap_eq_map BATCH_SIZE stripNiqqud (by decide)] at hw
    obtain ⟨w0, hw0, hmap⟩ := List.mem_map.mp hw
    obtain ⟨h1, h2, h3⟩ := validWords_facts t w0 hw0
    exact ⟨w0, hmap.symm, h1, h2, h3⟩

/-- Witness for C9's amended statement on a two-line input. -/
theorem loadWordlist_word_invariants_witness :
    ((SearchOpts.mk false false true).stripNiqqud = false ∧
      loadWordlist (fun _ => Except.ok ['א', 'ב', '\n', ' ']) SourceKey.nouns none none
        ⟨false, false, true⟩ = Except.ok [['א', 'ב']] ∧
      (∀ w ∈ [['א', 'ב']], w ≠ [] ∧ w.any isWs = false ∧ w.any isHebrewChar = true)) ∧
    ((SearchOpts.mk true false true).stripNiqqud = true ∧
      loadWordlist (fun _ => Except.ok ['א', 'ב', '\n', ' ']) SourceKey.nouns none none
        ⟨true, false, true⟩ = Except.ok [['א', 'ב']] ∧
      (∀ w ∈ [['א', 'ב']], ∃ w0, w = stripNiqqud w0 ∧ w0 ≠ [] ∧ w0.any isWs = false ∧
        w0.any isHebrewChar = true)) :=
  ⟨⟨rfl, by decide,
    loadWordlist_word_invariants.1 (fun _ => Except.ok ['א', 'ב', '\n', ' '])
      SourceKey.nouns none none ⟨false, false, true⟩ [['א', 'ב']] rfl (by decide)⟩,
   ⟨rfl, by decide,
    loadWordlist_word_invariants.2 (fun _ => Except.ok ['א', 'ב', '\n', ' '])
      SourceKey.nouns none none ⟨true, false, true⟩ [['א', 'ב']] rfl (by decide)⟩⟩

/-- Counterexample to C9 as stated: with `stripDiacritics` set, a line
consisting of the single niqqud mark U+05B8 (qamats) survives the filters
(it is non-empty, has no whitespace and lies in the Hebrew block) and is
then stripped to the empty string, so `loadWordlist` returns a word that is
empty and contains no Alphabet character. -/
theorem loadWordlist_word_invariants_counterexample :
    loadWordlist (fun _ => Except.ok [Char.ofNat 0x5B8]) SourceKey.nouns none none
      ⟨true, true, true⟩ = Except.ok [[]] ∧
    ¬ (∀ w ∈ [([] : List Char)], w ≠ [] ∧ w.any isHebrewChar = true) :=
  ⟨by decide, by decide⟩

end HebrewMatcher

namespace HebrewMatcher

/-! Pointwise evaluation lemmas for three-element anchored matches. -/

lemma matchEnd3 (e1 e2 e3 : RElem) (a b c : Char) :
    matchEnd [e1, e2, e3] [a, b, c] true =
      (elemMatch e1 a && elemMatch e2 b && elemMatch e3 c) := by
  simp only [matchEnd, charsConsume]
  cases elemMatch e1 a <;> cases elemMatch e2 b <;> cases elemMatch e3 c <;> simp

lemma matchEnd3_long (e1 e2 e3 : RElem) (a b c d : Char) (t : List Char) :
    matchEnd [e1, e2, e3] (a :: b :: c :: d :: t) true = false := by
  simp only [matchEnd, charsConsume]
  cases elemMatch e1 a <;> cases elemMatch e2 b <;> cases elemMatch e3 c <;> simp

lemma matchEnd3_short1 (e1 e2 e3 : RElem) (a : Char) :
    matchEnd [e1, e2, e3] [a] true = false := by
  simp only [matchEnd, charsConsume]
  cases elemMatch e1 a <;> simp

lemma matchEnd3_short2 (e1 e2 e3 : RElem) (a b : Char) :
    matchEnd [e1, e2, e3] [a, b] true = false := by
  simp only [matchEnd, charsConsume]
  cases elemMatch e1 a <;> cases elemMatch e2 b <;> simp

/-- C3: the matcher compiled from the template `א?ב` with `wholeWord = true`
accepts exactly the three-character words whose first character is `א`,
whose third is `ב` and whose second is any single Hebrew-block character;
in particular it rejects every word whose length is not 3. -/
theorem wildcard_template_matcher :
    templateToRegex ['א', '?', 'ב'] true = Except.ok ⟨regexSource ['א', '?', 'ב'] true⟩ ∧
    ∀ w : List Char,
      (regexTest ⟨regexSource ['א', '?', 'ב'] true⟩ w = true ↔
        ∃ b, w = ['א', b, 'ב'] ∧ isHebrewChar b = true) := by
  constructor
  · decide
  · intro w
    have hp : parseAll (regexSource ['א', '?', 'ב'] true) =
        some (true,
          [RElem.lit 'א',
           RElem.cls false [ClassItem.range (Char.ofNat 0x590) (Char.ofNat 0x5FF)],
           RElem.lit 'ב'], true) := by decide
    unfold regexTest
    rw [hp]
    simp only [if_pos, if_true]
    have h590 : (Char.ofNat 0x590).toNat = 0x590 := by decide
    have h5FF : (Char.ofNat 0x5FF).toNat = 0x5FF := by decide
    match w with
    | [] => simp [matchEnd, charsConsume]
    | [a] => simp [matchEnd3_short1]
    | [a, b] => simp [matchEnd3_short2]
    | [a, b, c] =>
      rw [matchEnd3]
      simp only [elemMatch, List.any_cons, List.any_nil, classItemMatch, h590, h5FF,
        Bool.or_false, Bool.false_eq_true, if_false, Bool.and_eq_true, beq_iff_eq,
        decide_eq_true_eq]
      simp only [isHebrewChar, Bool.and_eq_true, decide_eq_true_eq, List.cons.injEq,
        and_true]
      constructor
      · intro h
        exact ⟨b, ⟨h.1.1, rfl, h.2⟩, h.1.2⟩
      · rintro ⟨b', ⟨ha, hb, hc⟩, hranges⟩
        subst hb
        exact ⟨⟨ha, hranges⟩, hc⟩
    | a :: b :: c :: d :: t => simp [matchEnd3_long]

end HebrewMatcher

namespace HebrewMatcher

lemma parseClassAtom_noRB {s s1 : List Char} {a : Char}
    (hA : parseClassAtom s = some (a, s1)) (h : ']' ∉ s) : ']' ∉ s1 := by
  rw [parseClassAtom.eq_def] at hA
  split at hA
  · -- the \uXXXX arm, with its nested match on the four hex digits
    split at hA
    · simp only [Option.some.injEq, Prod.mk.injEq] at hA
      obtain ⟨-, rfl⟩ := hA
      intro hm
      exact h (by simp [List.mem_cons, hm])
    · cases hA
  · cases hA
  · -- the escaped-character arm
    split at hA
    · simp only [Option.some.injEq, Prod.mk.injEq] at hA
      obtain ⟨-, rfl⟩ := hA
      intro hm
      exact h (by simp [List.mem_cons, hm])
    · cases hA
  · cases hA
  · cases hA
  · cases hA
  · simp only [Option.some.injEq, Prod.mk.injEq] at hA
    obtain ⟨-, rfl⟩ := hA
    intro hm
    exact h (by simp [List.mem_cons, hm])

lemma parseClassItems_none : ∀ (fuel : Nat) (s : List Char), ']' ∉ s →
    parseClassItems fuel s = none := by
  intro fuel
  induction fuel with
  | zero => intro s _; rfl
  | succ n ih =>
    intro s h
    rw [parseClassItems.eq_def]
    split
    · rfl
    · simp at h
    · rename_i s d1 d2 fuel heq hne
      have hfuel : fuel = n := by omega
      subst hfuel
      cases hA : parseClassAtom s with
      | none => simp only [hA]
      | some p =>
        obtain ⟨a, s1⟩ := p
        simp only [hA]
        have hs1 : ']' ∉ s1 := parseClassAtom_noRB hA h
        split
        · simp at hs1
        · rename_i s2 heq2
          cases hB : parseClassAtom s2 with
          | none => simp only [hB]
          | some q =>
            obtain ⟨b, s3⟩ := q
            simp only [hB]
            have hs2 : ']' ∉ s2 := by
              intro hm
              exact hs1 (List.mem_cons_of_mem '-' hm)
            have hs3 : ']' ∉ s3 := parseClassAtom_noRB hB hs2
            rw [ih s3 hs3]
            split <;> rfl
        · rw [ih s1 hs1]

end HebrewMatcher

namespace HebrewMatcher

lemma parseClass_none (fuel : Nat) (s : List Char) (h : ']' ∉ s) :
    parseClass fuel s = none := by
  unfold parseClass
  split
  · rename_i rest
    rw [parseClassItems_none fuel rest (fun hm => h (List.mem_cons_of_mem '^' hm))]
  · rw [parseClassItems_none fuel s h]

lemma parseElems_openClass_none (fuel : Nat) (s : List Char) (h : ']' ∉ s) :
    parseElems (fuel + 1) ('[' :: s) = none := by
  show (match parseClass fuel s with
    | none => none
    | some (neg, items, rest2) =>
      match parseElems fuel rest2 with
      | none => none
      | some (es, e) => some (RElem.cls neg items :: es, e)) = none
  rw [parseClass_none fuel s h]

lemma templateScan_append : ∀ (xs : List Char) (b : Bool) (ys : List Char),
    templateScan (xs ++ ys) b = templateScan xs b ++ templateScan ys (scanInClass xs b) := by
  intro xs
  induction xs with
  | nil => intro b ys; rfl
  | cons c cs ih =>
    intro b ys
    cases b <;>
      (simp only [List.cons_append, templateScan, scanInClass]
       split_ifs <;> simp_all [ih, List.append_assoc])

lemma templateScan_inClass_verbatim : ∀ s : List Char, ']' ∉ s →
    templateScan s true = s := by
  intro s
  induction s with
  | nil => intro _; rfl
  | cons c cs ih =>
    intro h
    have hc : ¬((c == ']') = true) := by
      simp only [beq_iff_eq]
      intro he
      exact h (he ▸ List.mem_cons_self c cs)
    rw [templateScan]
    rw [if_neg (by simp), if_neg (by simp [hc]), if_pos rfl]
    exact congrArg (c :: ·) (ih (fun hm => h (List.mem_cons_of_mem c hm)))

lemma templateToRegex_openClass_error (rest : List Char) (ww : Bool)
    (h : ']' ∉ rest) : templateToRegex ('[' :: rest) ww = Except.error () := by
  unfold templateToRegex regexSource
  rw [show templateScan ('[' :: rest) false = '[' :: templateScan rest true from rfl,
      templateScan_inClass_verbatim rest h]
  cases ww with
  | false =>
    simp only [Bool.false_eq_true, if_false, List.nil_append, List.append_nil]
    have hnone : parseAll ('[' :: rest) = none := by
      show (match parseElems (('[' :: rest).length + 1) ('[' :: rest) with
        | none => none
        | some (es, e) => some (false, es, e)) = none
      rw [show ('[' :: rest).length + 1 = rest.length + 1 + 1 from by simp]
      rw [parseElems_openClass_none (rest.length + 1) rest h]
    rw [hnone]
  | true =>
    simp only [if_true, List.singleton_append, List.cons_append, List.append_assoc,
      List.nil_append]
    have h2 : ']' ∉ rest ++ ['$'] := by
      intro hm
      rcases List.mem_append.mp hm with hm1 | hm1
      · exact h hm1
      · simp at hm1
    have hnone : parseAll ('^' :: '[' :: (rest ++ ['$'])) = none := by
      show (match parseElems (('[' :: (rest ++ ['$'])).length + 1) ('[' :: (rest ++ ['$'])) with
        | none => none
        | some (es, e) => some (true, es, e)) = none
      rw [show ('[' :: (rest ++ ['$'])).length + 1 = (rest ++ ['$']).length + 1 + 1 from by simp]
      rw [parseElems_openClass_none ((rest ++ ['$']).length + 1) (rest ++ ['$']) h2]
    rw [hnone]

end HebrewMatcher

namespace HebrewMatcher

/-- Length of the leading run of backslashes. -/
def bsRun : List Char → Nat
  | [] => 0
  | c :: w => if c == '\\' then bsRun w + 1 else 0

/-- Length of the trailing run of backslashes. -/
def trailRun (u : List Char) : Nat :=
  bsRun u.reverse

lemma bsRun_le_length : ∀ w : List Char, bsRun w ≤ w.length := by
  intro w
  induction w with
  | nil => exact Nat.le_refl 0
  | cons c w ih =>
    by_cases h : c == '\\'
    · rw [bsRun, if_pos h]
      simpa using ih
    · rw [bsRun, if_neg h]
      simp

lemma bsRun_append : ∀ xs ys : List Char,
    bsRun (xs ++ ys) = if bsRun xs = xs.length then xs.length + bsRun ys else bsRun xs := by
  intro xs
  induction xs with
  | nil => intro ys; simp [bsRun]
  | cons c xs ih =>
    intro ys
    rw [List.cons_append]
    by_cases h : c == '\\'
    · have hr : bsRun (c :: xs) = bsRun xs + 1 := by rw [bsRun, if_pos h]
      rw [bsRun, if_pos h, ih ys, hr, List.length_cons]
      by_cases h2 : bsRun xs = xs.length
      · rw [if_pos h2, if_pos (by omega)]
        omega
      · rw [if_neg h2, if_neg (by omega)]
    · have hr : bsRun (c :: xs) = 0 := by rw [bsRun, if_neg h]
      rw [bsRun, if_neg h, hr, List.length_cons]
      rw [if_neg (by have := bsRun_le_length xs; omega)]

lemma trailRun_cons (c : Char) (w : List Char) (hc : ¬(c == '\\')) :
    trailRun (c :: w) = trailRun w := by
  unfold trailRun
  rw [List.reverse_cons, bsRun_append]
  by_cases h : bsRun w.reverse = w.reverse.length
  · rw [if_pos h, h]
    simp [bsRun, hc]
  · rw [if_neg h]

lemma trailRun_pair (c : Char) (w : List Char) :
    trailRun ('\\' :: c :: w) % 2 = trailRun w % 2 := by
  unfold trailRun
  have hL := bsRun_le_length w.reverse
  rw [show ('\\' :: c :: w).reverse = (w.reverse ++ [c]) ++ ['\\'] from by simp]
  rw [bsRun_append, bsRun_append]
  by_cases hA : bsRun w.reverse = w.reverse.length
  · rw [if_pos hA]
    by_cases hc : c == '\\'
    · have h1 : bsRun [c] = 1 := by simp [bsRun, hc]
      rw [h1, if_pos (by simp)]
      have h2 : bsRun ['\\'] = 1 := rfl
      rw [h2]
      simp only [List.length_append, List.length_singleton]
      omega
    · have h1 : bsRun [c] = 0 := by simp [bsRun, hc]
      rw [h1, if_neg (by simp)]
      omega
  · rw [if_neg hA, if_neg (by simp only [List.length_append, List.length_singleton]; omega)]

lemma trailRun_single_bs : trailRun ['\\'] = 1 := by decide

lemma bsRun_eq_length_iff : ∀ w : List Char,
    bsRun w = w.length ↔ w.all (fun c => c == '\\') = true := by
  intro w
  induction w with
  | nil => simp [bsRun]
  | cons c w ih =>
    by_cases h : c == '\\'
    · constructor
      · intro he
        rw [bsRun, if_pos h, List.length_cons] at he
        simp only [List.all_cons, h, Bool.true_and]
        exact ih.1 (by omega)
      · intro ha
        simp only [List.all_cons, Bool.and_eq_true] at ha
        rw [bsRun, if_pos h, List.length_cons, ih.2 ha.2]
    · constructor
      · intro he
        rw [bsRun, if_neg h, List.length_cons] at he
        exact absurd he (by omega)
      · intro ha
        simp only [List.all_cons, Bool.and_eq_true] at ha
        exact absurd ha.1 h

lemma trailRun_append (x w : List Char) :
    trailRun (x ++ w) =
      if w.all (fun c => c == '\\') = true then trailRun x + w.length else trailRun w := by
  unfold trailRun
  rw [List.reverse_append, bsRun_append]
  have hiff : (bsRun w.reverse = w.reverse.length) ↔ w.all (fun c => c == '\\') = true := by
    rw [bsRun_eq_length_iff]
    simp [List.all_reverse]
  by_cases h : w.all (fun c => c == '\\') = true
  · rw [if_pos (hiff.2 h), if_pos h]
    simp [Nat.add_comm]
  · rw [if_neg (fun hc => h (hiff.1 hc)), if_neg h]

end HebrewMatcher

namespace HebrewMatcher

lemma trailRun_cons_bs_notall (w : List Char)
    (h : ¬ (w.all (fun c => c == '\\') = true)) :
    trailRun ('\\' :: w) = trailRun w := by
  unfold trailRun
  rw [List.reverse_cons, bsRun_append]
  rw [if_neg (fun hc => h (by
    have := (bsRun_eq_length_iff w.reverse).1 hc
    simpa [List.all_reverse] using this))]

lemma scan_inClass_allBS : ∀ t : List Char,
    (templateScan t true).all (fun c => c == '\\') = true →
    scanInClass t true = true := by
  intro t
  induction t with
  | nil => intro _; rfl
  | cons c t ih =>
    intro h
    by_cases hc : c == ']'
    · rw [templateScan, if_neg (by simp), if_pos (by simp [hc])] at h
      rw [List.all_cons] at h
      exact absurd (Bool.and_eq_true_iff.mp h).1 (by decide)
    · rw [templateScan, if_neg (by simp), if_neg (by simp [hc]), if_pos rfl] at h
      rw [List.all_cons] at h
      rw [scanInClass, if_neg (by simp), if_neg (by simp [hc])]
      exact ih (Bool.and_eq_true_iff.mp h).2

lemma escapeChar_allBS {c : Char}
    (h : (escapeChar c).all (fun x => x == '\\') = true) :
    c = '\\' := by
  unfold escapeChar at h
  by_cases hm : isMeta c
  · rw [if_pos hm, List.all_cons, List.all_cons] at h
    exact eq_of_beq (Bool.and_eq_true_iff.mp (Bool.and_eq_true_iff.mp h).2).1
  · rw [if_neg hm, List.all_cons] at h
    have hc := eq_of_beq (Bool.and_eq_true_iff.mp h).1
    exact absurd (by rw [hc]; decide) hm

lemma scan_allBS_even : ∀ t : List Char,
    (templateScan t false).all (fun c => c == '\\') = true →
    (templateScan t false).length % 2 = 0 ∨ scanInClass t false = true := by
  intro t
  induction t with
  | nil => intro _; exact Or.inl rfl
  | cons c t ih =>
    intro h
    by_cases h1 : c == '['
    · rw [templateScan, if_pos (by simp [h1])] at h
      rw [List.all_cons] at h
      exact absurd (Bool.and_eq_true_iff.mp h).1 (by decide)
    · by_cases h2 : c == '?'
      · rw [templateScan, if_neg (by simp [h1]), if_neg (by simp), if_neg (by simp),
            if_pos h2, List.all_append] at h
        exact absurd (Bool.and_eq_true_iff.mp h).1 (by decide)
      · rw [templateScan, if_neg (by simp [h1]), if_neg (by simp), if_neg (by simp),
            if_neg h2, List.all_append] at h
        obtain ⟨he, hr⟩ := Bool.and_eq_true_iff.mp h
        have hc : c = '\\' := escapeChar_allBS he
        have hesc : escapeChar c = ['\\', '\\'] := by rw [hc]; rfl
        rw [templateScan, if_neg (by simp [h1]), if_neg (by simp), if_neg (by simp),
            if_neg h2, hesc]
        rw [scanInClass, if_neg (by simp [h1]), if_neg (by simp)]
        rcases ih hr with he2 | hs
        · exact Or.inl (by
            simp only [List.length_append, List.length_cons, List.length_nil]
            omega)
        · exact Or.inr hs

lemma scan_trailRun_even : ∀ (t : List Char) (b : Bool),
    scanInClass t b = false → trailRun (templateScan t b) % 2 = 0 := by
  intro t
  induction t with
  | nil =>
    intro b hb
    cases b with
    | false => decide
    | true => cases hb
  | cons c t ih =>
    intro b hb
    cases b with
    | true =>
      by_cases hc : c == ']'
      · rw [scanInClass, if_neg (by simp), if_pos (by simp [hc])] at hb
        rw [templateScan, if_neg (by simp), if_pos (by simp [hc])]
        rw [trailRun_cons _ _ (by decide)]
        exact ih false hb
      · rw [scanInClass, if_neg (by simp), if_neg (by simp [hc])] at hb
        rw [templateScan, if_neg (by simp), if_neg (by simp [hc]), if_pos rfl]
        by_cases hbs : c == '\\'
        · rw [eq_of_beq hbs]
          by_cases hall : (templateScan t true).all (fun x => x == '\\') = true
          · have := scan_inClass_allBS t hall
            rw [hb] at this
            exact Bool.noConfusion this
          · rw [trailRun_cons_bs_notall _ hall]
            exact ih true hb
        · rw [trailRun_cons _ _ (by simp [hbs])]
          exact ih true hb
    | false =>
      by_cases h1 : c == '['
      · rw [scanInClass, if_pos (by simp [h1])] at hb
        rw [templateScan, if_pos (by simp [h1])]
        rw [trailRun_cons _ _ (by decide)]
        exact ih true hb
      · by_cases h2 : c == '?'
        · rw [scanInClass, if_neg (by simp [h1]), if_neg (by simp)] at hb
          rw [templateScan, if_neg (by simp [h1]), if_neg (by simp), if_neg (by simp),
              if_pos h2]
          rw [trailRun_append]
          by_cases hall : (templateScan t false).all (fun x => x == '\\') = true
          · rw [if_pos hall]
            rcases scan_allBS_even t hall with he | hs
            · rw [show trailRun HEBREW_LETTERS_CLASS = 0 from by decide]
              omega
            · rw [hb] at hs
              exact Bool.noConfusion hs
          · rw [if_neg hall]
            exact ih false hb
        · rw [scanInClass, if_neg (by simp [h1]), if_neg (by simp)] at hb
          rw [templateScan, if_neg (by simp [h1]), if_neg (by simp), if_neg (by simp),
              if_neg h2]
          unfold escapeChar
          by_cases hm : isMeta c
          · rw [if_pos hm]
            simp only [List.cons_append, List.nil_append]
            rw [trailRun_pair]
            exact ih false hb
          · rw [if_neg hm]
            simp only [List.cons_append, List.nil_append]
            rw [trailRun_cons _ _ (fun hcc => hm (by rw [eq_of_beq hcc]; decide))]
            exact ih false hb

lemma scan_head_ne_caret (t : List Char) :
    templateScan t false = [] ∨
    ∃ c w, templateScan t false = c :: w ∧ ¬((c == '^') = true) := by
  cases t with
  | nil => exact Or.inl rfl
  | cons c t =>
    by_cases h1 : c == '['
    · rw [templateScan, if_pos (by simp [h1])]
      exact Or.inr ⟨'[', _, rfl, by decide⟩
    · by_cases h2 : c == '?'
      · rw [templateScan, if_neg (by simp [h1]), if_neg (by simp), if_neg (by simp),
            if_pos h2]
        unfold HEBREW_LETTERS_CLASS
        exact Or.inr ⟨'[', _, rfl, by decide⟩
      · rw [templateScan, if_neg (by simp [h1]), if_neg (by simp), if_neg (by simp),
            if_neg h2]
        unfold escapeChar
        by_cases hm : isMeta c
        · rw [if_pos hm]
          exact Or.inr ⟨'\\', _, rfl, by decide⟩
        · rw [if_neg hm]
          refine Or.inr ⟨c, _, rfl, fun hc => hm ?_⟩
          rw [eq_of_beq hc]
          decide

lemma scan_decompose_open : ∀ (t : List Char) (b : Bool),
    scanInClass t b = true →
    (b = true ∧ ']' ∉ t) ∨
    ∃ pre rest, t = pre ++ '[' :: rest ∧ scanInClass pre b = false ∧ ']' ∉ rest := by
  intro t
  induction t with
  | nil =>
    intro b hb
    exact Or.inl ⟨hb, by simp⟩
  | cons c t ih =>
    intro b hb
    by_cases h1 : (c == '[' && !b) = true
    · rw [scanInClass, if_pos h1] at hb
      obtain ⟨hc1, hb1⟩ := Bool.and_eq_true_iff.mp h1
      have hc : c = '[' := eq_of_beq hc1
      have hbf : b = false := by
        cases b with
        | false => rfl
        | true => exact Bool.noConfusion hb1
      rcases ih true hb with ⟨-, hnr⟩ | ⟨pre, rest, ht, hpre, hnr⟩
      · refine Or.inr ⟨[], t, ?_, ?_, hnr⟩
        · rw [hc]; rfl
        · rw [hbf]; rfl
      · refine Or.inr ⟨c :: pre, rest, ?_, ?_, hnr⟩
        · rw [ht]; rfl
        · rw [scanInClass, if_pos h1]
          exact hpre
    · by_cases h2 : (c == ']' && b) = true
      · rw [scanInClass, if_neg h1, if_pos h2] at hb
        rcases ih false hb with ⟨hf, -⟩ | ⟨pre, rest, ht, hpre, hnr⟩
        · exact Bool.noConfusion hf
        · refine Or.inr ⟨c :: pre, rest, ?_, ?_, hnr⟩
          · rw [ht]; rfl
          · rw [scanInClass, if_neg h1, if_pos h2]
            exact hpre
      · rw [scanInClass, if_neg h1, if_neg h2] at hb
        rcases ih b hb with ⟨hbt, hnr⟩ | ⟨pre, rest, ht, hpre, hnr⟩
        · refine Or.inl ⟨hbt, ?_⟩
          intro hm
          rcases List.mem_cons.mp hm with hm1 | hm1
          · rw [hbt] at h2
            exact h2 (by rw [← hm1]; simp)
          · exact hnr hm1
        · refine Or.inr ⟨c :: pre, rest, ?_, ?_, hnr⟩
          · rw [ht]; rfl
          · rw [scanInClass, if_neg h1, if_neg h2]
            exact hpre

lemma scan_open_decompose (t : List Char) (h : scanInClass t false = true) :
    ∃ pre rest, t = pre ++ '[' :: rest ∧ scanInClass pre false = false ∧ ']' ∉ rest := by
  rcases scan_decompose_open t false h with ⟨hf, -⟩ | h2
  · exact Bool.noConfusion hf
  · exact h2

end HebrewMatcher

namespace HebrewMatcher

lemma hexDigitVal_ne_bs {c : Char} {d : Nat} (h : hexDigitVal c = some d) :
    ¬((c == '\\') = true) := by
  intro hc
  rw [eq_of_beq hc] at h
  rw [show hexDigitVal '\\' = none from by decide] at h
  exact Option.noConfusion h

lemma parseClassAtom_u3 (z : List Char) :
    parseClassAtom ('\\' :: 'u' :: '[' :: z) = none := by
  cases z with
  | nil => rfl
  | cons c1 z1 =>
    cases z1 with
    | nil => rfl
    | cons c2 z2 =>
      cases z2 with
      | nil => rfl
      | cons c3 z3 =>
        rw [show parseClassAtom ('\\' :: 'u' :: '[' :: c1 :: c2 :: c3 :: z3) =
          (match hexDigitVal '[', hexDigitVal c1, hexDigitVal c2, hexDigitVal c3 with
            | some a, some b, some c, some d =>
              some (Char.ofNat (0x1000 * a + 0x100 * b + 0x10 * c + d), z3)
            | _, _, _, _ => none) from rfl]
        rw [show hexDigitVal '[' = none from by decide]

lemma parseClassAtom_u_full (e f g k : Char) (z : List Char) :
    parseClassAtom ('\\' :: 'u' :: e :: f :: g :: k :: z) =
      (match hexDigitVal e, hexDigitVal f, hexDigitVal g, hexDigitVal k with
        | some a, some b, some c, some d =>
          some (Char.ofNat (0x1000 * a + 0x100 * b + 0x10 * c + d), z)
        | _, _, _, _ => none) := rfl

lemma parseClassAtom_u4 (e : Char) (z : List Char) :
    parseClassAtom ('\\' :: 'u' :: e :: '[' :: z) = none := by
  cases z with
  | nil => rfl
  | cons c1 z1 =>
    cases z1 with
    | nil => rfl
    | cons c2 z2 =>
      rw [parseClassAtom_u_full]
      rw [show hexDigitVal '[' = none from by decide]
      cases hexDigitVal e <;> rfl

lemma parseClassAtom_u5 (e f : Char) (z : List Char) :
    parseClassAtom ('\\' :: 'u' :: e :: f :: '[' :: z) = none := by
  cases z with
  | nil => rfl
  | cons c1 z1 =>
    rw [parseClassAtom_u_full]
    rw [show hexDigitVal '[' = none from by decide]
    cases hexDigitVal e <;> cases hexDigitVal f <;> rfl

lemma parseClassAtom_u6 (e f g : Char) (z : List Char) :
    parseClassAtom ('\\' :: 'u' :: e :: f :: g :: '[' :: z) = none := by
  rw [parseClassAtom_u_full]
  rw [show hexDigitVal '[' = none from by decide]
  cases hexDigitVal e <;> cases hexDigitVal f <;> cases hexDigitVal g <;> rfl

end HebrewMatcher

namespace HebrewMatcher

lemma parseClassAtom_boundary (u v : List Char)
    (hpar : trailRun u % 2 = 0) (hne : u ≠ []) :
    parseClassAtom (u ++ '[' :: v) = none ∨
    ∃ a u1, parseClassAtom (u ++ '[' :: v) = some (a, u1 ++ '[' :: v) ∧
      trailRun u1 % 2 = 0 := by
  cases u with
  | nil => exact absurd rfl hne
  | cons x u' =>
    by_cases hx : x == '\\'
    · have hx' := eq_of_beq hx
      subst hx'
      cases u' with
      | nil => exact absurd hpar (by decide)
      | cons y u'' =>
        by_cases hy : y == 'u'
        · have hy' := eq_of_beq hy
          subst hy'
          cases u'' with
          | nil => exact Or.inl (parseClassAtom_u3 v)
          | cons e u3 =>
            cases u3 with
            | nil => exact Or.inl (parseClassAtom_u4 e v)
            | cons f u4 =>
              cases u4 with
              | nil => exact Or.inl (parseClassAtom_u5 e f v)
              | cons g u5 =>
                cases u5 with
                | nil => exact Or.inl (parseClassAtom_u6 e f g v)
                | cons k u6 =>
                  rw [show ('\\' :: 'u' :: e :: f :: g :: k :: u6) ++ '[' :: v =
                    '\\' :: 'u' :: e :: f :: g :: k :: (u6 ++ '[' :: v) from rfl]
                  rw [parseClassAtom_u_full]
                  cases ha : hexDigitVal e with
                  | none => exact Or.inl rfl
                  | some na =>
                    cases hb : hexDigitVal f with
                    | none => exact Or.inl rfl
                    | some nb =>
                      cases hc2 : hexDigitVal g with
                      | none => exact Or.inl rfl
                      | some nc =>
                        cases hd : hexDigitVal k with
                        | none => exact Or.inl rfl
                        | some nd =>
                          rw [trailRun_pair] at hpar
                          rw [trailRun_cons e _ (hexDigitVal_ne_bs ha)] at hpar
                          rw [trailRun_cons f _ (hexDigitVal_ne_bs hb)] at hpar
                          rw [trailRun_cons g _ (hexDigitVal_ne_bs hc2)] at hpar
                          rw [trailRun_cons k _ (hexDigitVal_ne_bs hd)] at hpar
                          exact Or.inr ⟨_, u6, rfl, hpar⟩
        · rw [List.cons_append, List.cons_append, parseClassAtom.eq_def]
          split
          · rename_i x0 h1 h2 h3 h4 rest heq
            exfalso
            injection heq with e1 heq
            injection heq with e2 heq
            exact hy (by rw [e2]; rfl)
          · exact Or.inl rfl
          · rename_i x0 c rest hnm1 hnm2 heq
            injection heq with e1 heq
            injection heq with e2 heq
            subst e2
            subst heq
            split
            · refine Or.inr ⟨y, u'', rfl, ?_⟩
              rw [trailRun_pair] at hpar
              exact hpar
            · exact Or.inl rfl
          · exact Or.inl rfl
          · exact Or.inl rfl
          · exact Or.inl rfl
          · rename_i x0 c rest hnm1 hnm2 hnm3 hnm4 hnm5 heq
            exfalso
            injection heq with e1 heq
            exact hnm3 y (u'' ++ '[' :: v) e1.symm heq.symm
    · by_cases hrb : x == ']'
      · have hx' := eq_of_beq hrb
        subst hx'
        exact Or.inl rfl
      · rw [List.cons_append, parseClassAtom.eq_def]
        split
        · rename_i x0 h1 h2 h3 h4 rest heq
          exfalso
          injection heq with e1 heq
          exact hx (by rw [e1]; rfl)
        · exact Or.inl rfl
        · rename_i x0 c rest hnm1 hnm2 heq
          exfalso
          injection heq with e1 heq
          exact hx (by rw [e1]; rfl)
        · exact Or.inl rfl
        · exact Or.inl rfl
        · exact Or.inl rfl
        · rename_i x0 c rest hnm1 hnm2 hnm3 hnm4 hnm5 heq
          injection heq with e1 heq
          subst e1
          subst heq
          refine Or.inr ⟨x, u', rfl, ?_⟩
          rw [trailRun_cons x _ hx] at hpar
          exact hpar

end HebrewMatcher

namespace HebrewMatcher

lemma notRB_cons_lb {v : List Char} (hv : ']' ∉ v) : ']' ∉ '[' :: v := by
  intro hm
  rcases List.mem_cons.mp hm with h | h
  · exact absurd h (by decide)
  · exact hv h

lemma parseClassItems_boundary : ∀ (fuel : Nat) (u v : List Char), ']' ∉ v →
    trailRun u % 2 = 0 →
    parseClassItems fuel (u ++ '[' :: v) = none ∨
    ∃ its u2, parseClassItems fuel (u ++ '[' :: v) = some (its, u2 ++ '[' :: v) ∧
      trailRun u2 % 2 = 0 := by
  intro fuel
  induction fuel with
  | zero =>
    intro u v hv hpar
    exact Or.inl rfl
  | succ n ih =>
    intro u v hv hpar
    cases u with
    | nil =>
      exact Or.inl (parseClassItems_none (n + 1) ('[' :: v) (notRB_cons_lb hv))
    | cons x u' =>
      by_cases hrb : x == ']'
      · have hx' := eq_of_beq hrb
        subst hx'
        refine Or.inr ⟨[], u', rfl, ?_⟩
        rw [trailRun_cons ']' u' (by decide)] at hpar
        exact hpar
      · rw [List.cons_append, parseClassItems.eq_def]
        split
        · exact Or.inl rfl
        · rename_i x0 x1 n2 rest heqf heq
          exfalso
          injection heq with e1 heq
          exact hrb (by rw [e1]; rfl)
        · rename_i x0 x1 fuel2 heqf hnm
          have hf : fuel2 = n := by omega
          subst hf
          have hne : (x :: u') ≠ ([] : List Char) := by simp
          rcases parseClassAtom_boundary (x :: u') v hpar hne with hA | ⟨a, u1, hA, hp1⟩
          · rw [List.cons_append] at hA
            rw [hA]
            exact Or.inl rfl
          · rw [List.cons_append] at hA
            rw [hA]
            simp only []
            split
            · rename_i rest heq
              cases u1 with
              | nil =>
                exfalso
                rw [List.nil_append] at heq
                injection heq with e1 heq
                exact absurd e1 (by decide)
              | cons w u2 =>
                cases u2 with
                | nil =>
                  exfalso
                  rw [List.cons_append, List.nil_append] at heq
                  injection heq with e1 heq
                  injection heq with e2 heq
                  exact absurd e2 (by decide)
                | cons z u3 =>
                  rw [List.cons_append, List.cons_append] at heq
                  injection heq with e1 heq
                  injection heq with e2 heq
                  subst e1
                  subst e2
                  subst heq
                  refine Or.inr ⟨_, u3, rfl, ?_⟩
                  rw [trailRun_cons '-' _ (by decide), trailRun_cons ']' _ (by decide)] at hp1
                  exact hp1
            · rename_i s2 hnmA heq
              cases u1 with
              | nil =>
                exfalso
                rw [List.nil_append] at heq
                injection heq with e1 heq
                exact absurd e1 (by decide)
              | cons w u2 =>
                rw [List.cons_append] at heq
                injection heq with e1 heq
                subst e1
                subst heq
                cases u2 with
                | nil =>
                  rw [List.nil_append]
                  rw [show parseClassAtom ('[' :: v) = some ('[', v) from rfl]
                  simp only []
                  split
                  · rw [parseClassItems_none _ v hv]
                    exact Or.inl rfl
                  · exact Or.inl rfl
                | cons w2 u3 =>
                  have hp2 : trailRun (w2 :: u3) % 2 = 0 := by
                    rw [trailRun_cons '-' _ (by decide)] at hp1
                    exact hp1
                  have hne2 : (w2 :: u3) ≠ ([] : List Char) := by simp
                  rcases parseClassAtom_boundary (w2 :: u3) v hp2 hne2 with hB | ⟨b, u4, hB, hp4⟩
                  · rw [hB]
                    exact Or.inl rfl
                  · rw [hB]
                    simp only []
                    split
                    · rcases ih u4 v hv hp4 with hI | ⟨its, u5, hI, hp5⟩
                      · rw [hI]
                        exact Or.inl rfl
                      · rw [hI]
                        exact Or.inr ⟨_, u5, rfl, hp5⟩
                    · exact Or.inl rfl
            · rename_i s1v hnmA hnmB
              rcases ih u1 v hv hp1 with hI | ⟨its, u5, hI, hp5⟩
              · rw [hI]
                exact Or.inl rfl
              · rw [hI]
                exact Or.inr ⟨_, u5, rfl, hp5⟩

end HebrewMatcher

namespace HebrewMatcher

lemma parseClass_boundary (fuel : Nat) (u v : List Char) (hv : ']' ∉ v)
    (hpar : trailRun u % 2 = 0) :
    parseClass fuel (u ++ '[' :: v) = none ∨
    ∃ neg its u2, parseClass fuel (u ++ '[' :: v) = some (neg, its, u2 ++ '[' :: v) ∧
      trailRun u2 % 2 = 0 := by
  unfold parseClass
  split
  · rename_i rest heq
    cases u with
    | nil =>
      exfalso
      rw [List.nil_append] at heq
      injection heq with e1 heq
      exact absurd e1 (by decide)
    | cons w u' =>
      rw [List.cons_append] at heq
      injection heq with e1 heq
      subst heq
      rw [trailRun_cons w u' (by rw [e1]; decide)] at hpar
      rcases parseClassItems_boundary fuel u' v hv hpar with hI | ⟨its, u2, hI, hp2⟩
      · rw [hI]
        exact Or.inl rfl
      · rw [hI]
        exact Or.inr ⟨true, its, u2, rfl, hp2⟩
  · rcases parseClassItems_boundary fuel u v hv hpar with hI | ⟨its, u2, hI, hp2⟩
    · rw [hI]
      exact Or.inl rfl
    · rw [hI]
      exact Or.inr ⟨false, its, u2, rfl, hp2⟩

end HebrewMatcher

namespace HebrewMatcher

lemma parseElems_boundary : ∀ (fuel : Nat) (u v : List Char), ']' ∉ v →
    trailRun u % 2 = 0 → parseElems fuel (u ++ '[' :: v) = none := by
  intro fuel
  induction fuel with
  | zero =>
    intro u v _ _
    rfl
  | succ n ih =>
    intro u v hv hpar
    cases u with
    | nil =>
      rw [List.nil_append]
      exact parseElems_openClass_none n v hv
    | cons x u' =>
      rw [List.cons_append, parseElems.eq_def]
      split
      · rfl
      · rename_i x0 x1 n2 heqf heq
        exact absurd heq (by simp)
      · rename_i x0 x1 fuel2 c rest heqf heq
        have hf : fuel2 = n := by omega
        subst hf
        injection heq with e1 e2
        subst e1
        subst e2
        by_cases hd : x = '$'
        · subst hd
          rw [show ((u' ++ '[' :: v).isEmpty) = false from by cases u' <;> rfl]
          rfl
        · rw [if_neg (by simp [hd])]
          by_cases hbs : x = '\\'
          · subst hbs
            rw [if_pos (show (('\\' : Char) == '\\') = true from rfl)]
            cases u' with
            | nil => exact absurd hpar (by decide)
            | cons c2 u'' =>
              rw [List.cons_append]
              simp only []
              have hp2 : trailRun u'' % 2 = 0 := by
                rw [trailRun_pair] at hpar
                exact hpar
              by_cases hg : (isMeta c2 || c2 == '/') = true
              · rw [if_pos hg, ih u'' v hv hp2]
              · rw [if_neg hg]
          · rw [if_neg (by simp [hbs])]
            by_cases hlb : x = '['
            · subst hlb
              rw [if_pos (show (('[' : Char) == '[') = true from rfl)]
              have hp' : trailRun u' % 2 = 0 := by
                rw [trailRun_cons '[' u' (by decide)] at hpar
                exact hpar
              rcases parseClass_boundary fuel2 u' v hv hp' with hC | ⟨neg, its, u2, hC, hp2⟩
              · rw [hC]
              · rw [hC]
                simp only []
                rw [ih u2 v hv hp2]
            · rw [if_neg (by simp [hlb])]
              by_cases hm : isMeta x = true
              · rw [if_pos hm]
              · rw [if_neg hm]
                have hp' : trailRun u' % 2 = 0 := by
                  rw [trailRun_cons x u' (fun hh => hbs (eq_of_beq hh))] at hpar
                  exact hpar
                rw [ih u' v hv hp']

end HebrewMatcher

namespace HebrewMatcher

lemma parseAll_boundary_nohat (u v : List Char) (hv : ']' ∉ v)
    (hpar : trailRun u % 2 = 0)
    (hhead : u = [] ∨ ∃ c w, u = c :: w ∧ ¬((c == '^') = true)) :
    parseAll (u ++ '[' :: v) = none := by
  unfold parseAll
  split
  · rename_i rest heq
    exfalso
    rcases hhead with rfl | ⟨c, w, rfl, hc⟩
    · rw [List.nil_append] at heq
      injection heq with e1 heq
      exact absurd e1 (by decide)
    · rw [List.cons_append] at heq
      injection heq with e1 heq
      exact hc (by rw [e1]; rfl)
  · rw [parseElems_boundary _ u v hv hpar]

lemma templateToRegex_unclosed (t : List Char) (ww : Bool)
    (h : scanInClass t false = true) :
    templateToRegex t ww = Except.error () := by
  obtain ⟨pre, rest, rfl, hpre, hrest⟩ := scan_open_decompose t h
  have hscan : templateScan (pre ++ '[' :: rest) false
      = templateScan pre false ++ '[' :: rest := by
    rw [templateScan_append pre false ('[' :: rest), hpre]
    rw [show templateScan ('[' :: rest) false = '[' :: templateScan rest true from rfl,
        templateScan_inClass_verbatim rest hrest]
  have hpar : trailRun (templateScan pre false) % 2 = 0 := scan_trailRun_even pre false hpre
  unfold templateToRegex regexSource
  rw [hscan]
  cases ww with
  | false =>
    simp only [Bool.false_eq_true, if_false, List.nil_append, List.append_nil]
    rw [parseAll_boundary_nohat (templateScan pre false) rest hrest hpar
      (scan_head_ne_caret pre)]
  | true =>
    simp only [if_true, List.singleton_append, List.cons_append, List.append_assoc,
      List.nil_append]
    have hv2 : ']' ∉ rest ++ ['$'] := by
      intro hm
      rcases List.mem_append.mp hm with hm1 | hm1
      · exact hrest hm1
      · simp at hm1
    have hnone : parseAll ('^' :: (templateScan pre false ++ '[' :: (rest ++ ['$']))) = none := by
      show (match parseElems ((templateScan pre false ++ '[' :: (rest ++ ['$'])).length + 1)
          (templateScan pre false ++ '[' :: (rest ++ ['$'])) with
        | none => none
        | some (es, e) => some (true, es, e)) = none
      rw [parseElems_boundary _ (templateScan pre false) (rest ++ ['$']) hv2 hpar]
    rw [hnone]

end HebrewMatcher

namespace HebrewMatcher

/-- C1 (amended): the left-to-right scan itself completes on every
template and passes an unterminated bracket class through verbatim as the
literal text that was accumulated (first conjunct); however the subsequent
`new RegExp` construction rejects the resulting source, so
`templateToRegex` raises a `SyntaxError` on every template whose opening
`[` is never closed — i.e. whose scan ends with the `inClass` flag still
set (second conjunct) — rather than completing without error, as
claimed. -/
theorem unterminated_class_passthrough :
    (∀ pre rest : List Char, scanInClass pre false = false → ']' ∉ rest →
      templateScan (pre ++ '[' :: rest) false =
        templateScan pre false ++ '[' :: rest) ∧
    (∀ (t : List Char) (ww : Bool), scanInClass t false = true →
      templateToRegex t ww = Except.error ()) := by
  constructor
  · intro pre rest hpre hrest
    rw [templateScan_append pre false ('[' :: rest), hpre]
    rw [show templateScan ('[' :: rest) false = '[' :: templateScan rest true from rfl,
        templateScan_inClass_verbatim rest hrest]
  · exact templateToRegex_unclosed

/-- Counterexample to C1 as stated: compiling the template `[` raises (the
`u`-flag `RegExp` constructor throws `SyntaxError: unterminated character
class` on the produced source `^[$`), so compilation does not complete
without error on every malformed template. -/
theorem unterminated_class_counterexample :
    templateToRegex ['['] true = Except.error () := by decide

/-- Witness for C1's amended statement: the verbatim pass-through at
`pre = א`, `rest = ב`, and the raised error on the template `א[` (an
unterminated class opened after a preceding literal). -/
theorem unterminated_class_passthrough_witness :
    templateScan (['א'] ++ '[' :: ['ב']) false =
      templateScan ['א'] false ++ '[' :: ['ב'] ∧
    templateToRegex ['א', '['] true = Except.error () :=
  ⟨unterminated_class_passthrough.1 ['א'] ['ב'] (by decide) (by decide),
   unterminated_class_passthrough.2 ['א', '['] true (by decide)⟩

end HebrewMatcher

namespace HebrewMatcher

/-- The word count a source contributes to `stats.total`: its loaded count
when loading succeeds, and 0 when it fails. -/
def sourceLoadCount (fetch : List Char → Except Nat (List Char)) (opts : SearchOpts)
    (k : SourceKey) : Nat :=
  match loadWordlist fetch k none none opts with
  | Except.error _ => 0
  | Except.ok ws => ws.length

/-- The matches a source contributes: empty when loading or scanning
fails, the scan result otherwise. -/
def sourceScan (fetch : List Char → Except Nat (List Char)) (pat : List Char)
    (opts : SearchOpts) (lc : Option LetterConstraints) (k : SourceKey) :
    List (List Char) :=
  match loadWordlist fetch k none none opts with
  | Except.error _ => []
  | Except.ok ws =>
    match searchInWordlist ws pat opts.wholeWord lc with
    | Except.error _ => []
    | Except.ok ms => ms

/-- The `onSourceStatus` call a source produces: an `'error'` record with
count 0 and the message when loading (or scanning) fails, a `'success'`
record with the loaded count otherwise. -/
def sourceEvent (fetch : List Char → Except Nat (List Char)) (pat : List Char)
    (opts : SearchOpts) (lc : Option LetterConstraints) (k : SourceKey) : StatusEvent :=
  match loadWordlist fetch k none none opts with
  | Except.error e => StatusEvent.failure k 0 e
  | Except.ok ws =>
    match searchInWordlist ws pat opts.wholeWord lc with
    | Except.error _ => StatusEvent.failure k 0 RunErr.regexSyntax
    | Except.ok _ => StatusEvent.success k ws.length

lemma processSource_spec (fetch : List Char → Except Nat (List Char)) (pat : List Char)
    (opts : SearchOpts) (lc : Option LetterConstraints) (st : OrchState) (k : SourceKey) :
    processSource fetch pat opts lc st k =
      ⟨st.matches' ++ sourceScan fetch pat opts lc k,
       st.total + sourceLoadCount fetch opts k,
       st.matched + (sourceScan fetch pat opts lc k).length,
       st.events ++ [sourceEvent fetch pat opts lc k]⟩ := by
  unfold processSource sourceScan sourceLoadCount sourceEvent
  cases hl : loadWordlist fetch k none none opts with
  | error e => simp [hl]
  | ok ws =>
    cases hs : searchInWordlist ws pat opts.wholeWord lc with
    | error e => simp [hl, hs]
    | ok ms => simp [hl, hs]

lemma processSources_spec (fetch : List Char → Except Nat (List Char)) (pat : List Char)
    (opts : SearchOpts) (lc : Option LetterConstraints) :
    ∀ (ks : List SourceKey) (st : OrchState),
      processSources fetch pat opts lc st ks =
        ⟨st.matches' ++ ks.flatMap (sourceScan fetch pat opts lc),
         st.total + (ks.map (sourceLoadCount fetch opts)).sum,
         st.matched + (ks.flatMap (sourceScan fetch pat opts lc)).length,
         st.events ++ ks.map (sourceEvent fetch pat opts lc)⟩ := by
  intro ks
  induction ks with
  | nil => intro st; simp [processSources]
  | cons k ks ih =>
    intro st
    show processSources fetch pat opts lc (processSource fetch pat opts lc st k) ks = _
    rw [ih, processSource_spec]
    simp [List.append_assoc, List.length_append, Nat.add_assoc]

/-- The matches a custom list contributes when its scan succeeds. -/
def customScan (pat : List Char) (opts : SearchOpts) (lc : Option LetterConstraints)
    (cl : CustomList) : List (List Char) :=
  match searchInWordlist cl.words pat opts.wholeWord lc with
  | Except.error _ => []
  | Except.ok ms => ms

lemma processCustoms_ok_spec (pat : List Char) (opts : SearchOpts)
    (lc : Option LetterConstraints) :
    ∀ (cls : List CustomList) (st st2 : OrchState),
      processCustoms pat opts lc st cls = Except.ok st2 →
      st2 = ⟨st.matches' ++ cls.flatMap (customScan pat opts lc),
             st.total + (cls.map (fun cl => cl.words.length)).sum,
             st.matched + (cls.flatMap (customScan pat opts lc)).length,
             st.events⟩ := by
  intro cls
  induction cls with
  | nil =>
    intro st st2 h
    injection h with h'
    subst h'
    simp
  | cons cl cls ih =>
    intro st st2 h
    cases hs : searchInWordlist cl.words pat opts.wholeWord lc with
    | error e =>
      simp only [processCustoms, hs] at h
      cases h
    | ok ms =>
      simp only [processCustoms, hs] at h
      have h2 := ih _ _ h
      subst h2
      simp only [List.flatMap_cons, List.map_cons, List.sum_cons, customScan, hs]
      simp [List.append_assoc, List.length_append, Nat.add_assoc]

lemma processCustoms_of_compile {pat : List Char} {opts : SearchOpts} {rx : JsRegex}
    (lc : Option LetterConstraints)
    (hrx : templateToRegex pat opts.wholeWord = Except.ok rx) :
    ∀ (cls : List CustomList) (st : OrchState),
      processCustoms pat opts lc st cls =
        Except.ok
          ⟨st.matches' ++ cls.flatMap (fun cl => scanWords BATCH_SIZE rx lc cl.words),
           st.total + (cls.map (fun cl => cl.words.length)).sum,
           st.matched + (cls.flatMap (fun cl => scanWords BATCH_SIZE rx lc cl.words)).length,
           st.events⟩ := by
  intro cls
  induction cls with
  | nil => intro st; simp [processCustoms]
  | cons cl cls ih =>
    intro st
    simp only [processCustoms, searchInWordlist_of_compile hrx]
    rw [ih]
    simp [List.append_assoc, List.length_append, Nat.add_assoc]

end HebrewMatcher

namespace HebrewMatcher

/-- `sourceScan` specialised to a successfully compiled template. -/
def sourceMatchesOk (fetch : List Char → Except Nat (List Char)) (opts : SearchOpts)
    (rx : JsRegex) (lc : Option LetterConstraints) (k : SourceKey) : List (List Char) :=
  match loadWordlist fetch k none none opts with
  | Except.error _ => []
  | Except.ok ws => scanWords BATCH_SIZE rx lc ws

/-- `sourceEvent` specialised to a successfully compiled template: the
event depends only on the load outcome. -/
def sourceEventOk (fetch : List Char → Except Nat (List Char)) (opts : SearchOpts)
    (k : SourceKey) : StatusEvent :=
  match loadWordlist fetch k none none opts with
  | Except.error e => StatusEvent.failure k 0 e
  | Except.ok ws => StatusEvent.success k ws.length

lemma sourceScan_of_compile (fetch : List Char → Except Nat (List Char)) {pat : List Char}
    {opts : SearchOpts} {rx : JsRegex} (lc : Option LetterConstraints)
    (hrx : templateToRegex pat opts.wholeWord = Except.ok rx) (k : SourceKey) :
    sourceScan fetch pat opts lc k = sourceMatchesOk fetch opts rx lc k := by
  unfold sourceScan sourceMatchesOk
  cases hl : loadWordlist fetch k none none opts with
  | error e => simp [hl]
  | ok ws => simp [hl, searchInWordlist_of_compile hrx]

lemma sourceEvent_of_compile (fetch : List Char → Except Nat (List Char)) {pat : List Char}
    {opts : SearchOpts} {rx : JsRegex} (lc : Option LetterConstraints)
    (hrx : templateToRegex pat opts.wholeWord = Except.ok rx) (k : SourceKey) :
    sourceEvent fetch pat opts lc k = sourceEventOk fetch opts k := by
  unfold sourceEvent sourceEventOk
  cases hl : loadWordlist fetch k none none opts with
  | error e => simp [hl]
  | ok ws => simp [hl, searchInWordlist_of_compile hrx]

/-- C7: with a compilable template, the orchestrator always returns
`Except.ok` no matter which sources fail to load; a failing source is
recorded as an `onSourceStatus` call with its key, status `'error'`,
count 0 and the message, the loop proceeds, and the returned matches are
exactly those of the sources that loaded (plus the custom lists). -/
theorem load_error_isolation (fetch : List Char → Except Nat (List Char))
    (ks : List SourceKey) (cs : List CustomList) (pat : List Char)
    (opts : SearchOpts) (lc : Option LetterConstraints) (rx : JsRegex)
    (hrx : templateToRegex pat opts.wholeWord = Except.ok rx) :
    (loadAndSearchWordlists fetch ks cs pat opts lc =
      Except.ok
        ⟨(if opts.unique then dedupeFirst else id)
            (ks.flatMap (sourceMatchesOk fetch opts rx lc) ++
             cs.flatMap (fun cl => scanWords BATCH_SIZE rx lc cl.words)),
         (ks.map (sourceLoadCount fetch opts)).sum +
           (cs.map (fun cl => cl.words.length)).sum,
         ((if opts.unique then dedupeFirst else id)
            (ks.flatMap (sourceMatchesOk fetch opts rx lc) ++
             cs.flatMap (fun cl => scanWords BATCH_SIZE rx lc cl.words))).length,
         ks.map (sourceEventOk fetch opts)⟩) ∧
    ∀ k e, k ∈ ks → loadWordlist fetch k none none opts = Except.error e →
      StatusEvent.failure k 0 e ∈ ks.map (sourceEventOk fetch opts) := by
  constructor
  · unfold loadAndSearchWordlists
    rw [processSources_spec, processCustoms_of_compile lc hrx]
    rw [funext (sourceScan_of_compile fetch lc hrx),
        funext (sourceEvent_of_compile fetch lc hrx)]
    by_cases hu : opts.unique = true
    · simp [hu, List.append_assoc, Nat.add_assoc, List.length_append]
    · simp [hu, List.append_assoc, Nat.add_assoc, List.length_append]
  · intro k e hk he
    rw [List.mem_map]
    refine ⟨k, hk, ?_⟩
    unfold sourceEventOk
    rw [he]

end HebrewMatcher

namespace HebrewMatcher

/-- C10: whenever the orchestrator returns, `stats.matched` equals the
length of the returned match sequence (with or without dedupe), and
`stats.total` is the sum of the loaded counts of the sources that loaded
successfully (a failed source contributing 0) plus the custom lists'
lengths. -/
theorem stats_consistent (fetch : List Char → Except Nat (List Char))
    (ks : List SourceKey) (cs : List CustomList) (pat : List Char)
    (opts : SearchOpts) (lc : Option LetterConstraints) (r : SearchResult)
    (h : loadAndSearchWordlists fetch ks cs pat opts lc = Except.ok r) :
    r.matched = r.matches'.length ∧
    r.total = (ks.map (sourceLoadCount fetch opts)).sum +
      (cs.map (fun cl => cl.words.length)).sum := by
  unfold loadAndSearchWordlists at h
  cases hpc : processCustoms pat opts lc
      (processSources fetch pat opts lc ⟨[], 0, 0, []⟩ ks) cs with
  | error e =>
    rw [hpc] at h
    cases h
  | ok st2 =>
    rw [hpc] at h
    have hst2 := processCustoms_ok_spec pat opts lc cs _ st2 hpc
    rw [processSources_spec] at hst2
    split at h
    · rename_i x e heq
      cases heq
    · rename_i x st2b heq
      injection heq with heq'
      subst heq'
      split at h
      · injection h with h'
        subst h'
        refine ⟨rfl, ?_⟩
        rw [hst2]
        simp [Nat.add_assoc]
      · injection h with h'
        subst h'
        constructor
        · rw [hst2]
          simp [List.length_append]
        · rw [hst2]
          simp [Nat.add_assoc]

/-- Witness for C10 on a run with one failing source, one loaded source
and one custom list. -/
theorem stats_consistent_witness :
    loadAndSearchWordlists
        (fun url => if url = sourcesTable SourceKey.nouns
          then Except.ok ['א', 'ב', '\n', 'ב', 'ג'] else Except.error 404)
        [SourceKey.adjectives, SourceKey.nouns] [⟨['x'], [['ג', 'ד']]⟩]
        ['?', '?'] ⟨false, false, true⟩ none =
      Except.ok ⟨[['א', 'ב'], ['ב', 'ג'], ['ג', 'ד']], 3, 3,
        [StatusEvent.failure SourceKey.adjectives 0 (RunErr.http 404),
         StatusEvent.success SourceKey.nouns 2]⟩ ∧
    (3 = [['א', 'ב'], ['ב', 'ג'], ['ג', 'ד']].length ∧
     3 = ([SourceKey.adjectives, SourceKey.nouns].map
        (sourceLoadCount
          (fun url => if url = sourcesTable SourceKey.nouns
            then Except.ok ['א', 'ב', '\n', 'ב', 'ג'] else Except.error 404)
          ⟨false, false, true⟩)).sum +
        ([(⟨['x'], [['ג', 'ד']]⟩ : CustomList)].map (fun cl => cl.words.length)).sum) :=
  ⟨by decide,
    stats_consistent
      (fun url => if url = sourcesTable SourceKey.nouns
        then Except.ok ['א', 'ב', '\n', 'ב', 'ג'] else Except.error 404)
      [SourceKey.adjectives, SourceKey.nouns] [⟨['x'], [['ג', 'ד']]⟩]
      ['?', '?'] ⟨false, false, true⟩ none
      ⟨[['א', 'ב'], ['ב', 'ג'], ['ג', 'ד']], 3, 3,
        [StatusEvent.failure SourceKey.adjectives 0 (RunErr.http 404),
         StatusEvent.success SourceKey.nouns 2]⟩ (by decide)⟩

end HebrewMatcher

namespace HebrewMatcher

/-- Witness for C7: the load-error-isolation scenario — one source fails
with HTTP 404, the other loads two words that both match; the run returns
both matches and records one `error` and one `success` status. -/
theorem load_error_isolation_witness :
    templateToRegex ['?', '?'] (SearchOpts.mk false false true).wholeWord =
      Except.ok ⟨regexSource ['?', '?'] true⟩ ∧
    loadAndSearchWordlists
        (fun url => if url = sourcesTable SourceKey.nouns
          then Except.ok ['א', 'ב', '\n', 'ב', 'ג'] else Except.error 404)
        [SourceKey.adjectives, SourceKey.nouns] [] ['?', '?'] ⟨false, false, true⟩ none =
      Except.ok ⟨[['א', 'ב'], ['ב', 'ג']], 2, 2,
        [StatusEvent.failure SourceKey.adjectives 0 (RunErr.http 404),
         StatusEvent.success SourceKey.nouns 2]⟩ ∧
    StatusEvent.failure SourceKey.adjectives 0 (RunErr.http 404) ∈
      [SourceKey.adjectives, SourceKey.nouns].map
        (sourceEventOk
          (fun url => if url = sourcesTable SourceKey.nouns
            then Except.ok ['א', 'ב', '\n', 'ב', 'ג'] else Except.error 404)
          ⟨false, false, true⟩) :=
  ⟨by decide,
   by
     have h := (load_error_isolation
       (fun url => if url = sourcesTable SourceKey.nouns
         then Except.ok ['א', 'ב', '\n', 'ב', 'ג'] else Except.error 404)
       [SourceKey.adjectives, SourceKey.nouns] [] ['?', '?'] ⟨false, false, true⟩ none
       ⟨regexSource ['?', '?'] true⟩ (by decide)).1
     rw [h]
     decide,
   (load_error_isolation
       (fun url => if url = sourcesTable SourceKey.nouns
         then Except.ok ['א', 'ב', '\n', 'ב', 'ג'] else Except.error 404)
       [SourceKey.adjectives, SourceKey.nouns] [] ['?', '?'] ⟨false, false, true⟩ none
       ⟨regexSource ['?', '?'] true⟩ (by decide)).2
     SourceKey.adjectives (RunErr.http 404) (by decide) (by decide)⟩

end HebrewMatcher
